import Mathlib

/-!
# Verification of the VHDL testbench generator (`src/main.rs`)

Shallow embedding of the Rust program's parsing and generation pipeline.
Strings are modelled as `List Char`; Rust `HashMap`s are modelled as
association lists; fallible operations return `Option`.  Character classes
(`\w`, `\s`) and case mappings are modelled on their ASCII fragments, which
is the fragment exercised by the program's inputs.
-/

namespace Autobench

/-- ASCII fragment of the regex class `\s` (also Rust `char::is_whitespace`). -/
def isWsChar (c : Char) : Bool :=
  c = ' ' || c = '\t' || c = '\n' || c = '\x0b' || c = '\x0c' || c = '\r'

/-- ASCII fragment of the regex word class `\w` = `[A-Za-z0-9_]`. -/
def isWordChar (c : Char) : Bool :=
  ('a' ≤ c && c ≤ 'z') || ('A' ≤ c && c ≤ 'Z') || ('0' ≤ c && c ≤ '9') || c = '_'

/-- ASCII lowercasing of one character (Rust `to_lowercase` on ASCII input). -/
def lowerChar (c : Char) : Char :=
  if c = 'A' then 'a' else if c = 'B' then 'b' else if c = 'C' then 'c'
  else if c = 'D' then 'd' else if c = 'E' then 'e' else if c = 'F' then 'f'
  else if c = 'G' then 'g' else if c = 'H' then 'h' else if c = 'I' then 'i'
  else if c = 'J' then 'j' else if c = 'K' then 'k' else if c = 'L' then 'l'
  else if c = 'M' then 'm' else if c = 'N' then 'n' else if c = 'O' then 'o'
  else if c = 'P' then 'p' else if c = 'Q' then 'q' else if c = 'R' then 'r'
  else if c = 'S' then 's' else if c = 'T' then 't' else if c = 'U' then 'u'
  else if c = 'V' then 'v' else if c = 'W' then 'w' else if c = 'X' then 'x'
  else if c = 'Y' then 'y' else if c = 'Z' then 'z' else c

/-- ASCII uppercasing of one character (Rust `to_uppercase` on ASCII input). -/
def upperChar (c : Char) : Char :=
  if c = 'a' then 'A' else if c = 'b' then 'B' else if c = 'c' then 'C'
  else if c = 'd' then 'D' else if c = 'e' then 'E' else if c = 'f' then 'F'
  else if c = 'g' then 'G' else if c = 'h' then 'H' else if c = 'i' then 'I'
  else if c = 'j' then 'J' else if c = 'k' then 'K' else if c = 'l' then 'L'
  else if c = 'm' then 'M' else if c = 'n' then 'N' else if c = 'o' then 'O'
  else if c = 'p' then 'P' else if c = 'q' then 'Q' else if c = 'r' then 'R'
  else if c = 's' then 'S' else if c = 't' then 'T' else if c = 'u' then 'U'
  else if c = 'v' then 'V' else if c = 'w' then 'W' else if c = 'x' then 'X'
  else if c = 'y' then 'Y' else if c = 'z' then 'Z' else c

/-- Lowercase a whole string (list of characters). -/
def lowerStr (s : List Char) : List Char := s.map lowerChar

/-- Uppercase a whole string (Rust `String::to_uppercase` on ASCII input). -/
def upperStr (s : List Char) : List Char := s.map upperChar

/-- A single-quote character, used when synthesising VHDL literals. -/
def sq : Char := '\''

/-- Rust `str::trim` (ASCII whitespace fragment): strip whitespace at both ends. -/
def trimWs (s : List Char) : List Char :=
  ((s.dropWhile isWsChar).reverse.dropWhile isWsChar).reverse

/-- One port of the parsed entity (`struct VhdlPort`). -/
structure VhdlPort where
  name : List Char
  direction : List Char
  signal_type : List Char
  range : Option (List Char)
  deriving Repr, DecidableEq

/-- One generic of the parsed entity (`struct VhdlGeneric`). -/
structure VhdlGeneric where
  name : List Char
  generic_type : List Char
  default_value : Option (List Char)
  deriving Repr, DecidableEq

/-- The parsed entity (`struct VhdlEntity`). -/
structure VhdlEntity where
  name : List Char
  generics : List VhdlGeneric
  ports : List VhdlPort
  deriving Repr, DecidableEq

/-- One declarative test vector (`struct TestVector`); the input and
expected-output `HashMap`s are modelled as association lists. -/
structure TestVector where
  time_ns : Nat
  inputs : List (List Char × List Char)
  expected_outputs : Option (List (List Char × List Char))
  description : Option (List Char)
  deriving Repr, DecidableEq

/-- The optional TOML configuration (`struct TestbenchConfig`); the generic
override `HashMap` is modelled as an association list. -/
structure TestbenchConfig where
  clock_period_ns : Option Nat
  reset_duration_ns : Option Nat
  test_vectors : Option (List TestVector)
  generics : Option (List (List Char × List Char))
  deriving Repr, DecidableEq

/-! ## Normalizer (`clean_content`) -/

/-- Split a string at `'\n'` characters (every occurrence starts a new piece). -/
def splitNl : List Char → List (List Char)
  | [] => [[]]
  | c :: rest =>
    if c = '\n' then [] :: splitNl rest
    else
      match splitNl rest with
      | l :: ls => (c :: l) :: ls
      | [] => [[c]]

/-- Drop one trailing `'\r'`, as Rust `str::lines` does on `\r\n` endings. -/
def dropCr (l : List Char) : List Char :=
  if l.getLast? = some '\r' then l.dropLast else l

/-- Rust `str::lines`: split on `'\n'`, strip `\r\n` endings, and do not
produce a final empty line for a trailing newline. -/
def linesRust (s : List Char) : List (List Char) :=
  let ls := splitNl s
  (if ls.getLast? = some [] then ls.dropLast else ls).map dropCr

/-- Apply the line-comment regex `--.*$`: keep the text before the first
occurrence of `--` (the whole line when there is none). -/
def stripComment : List Char → List Char
  | [] => []
  | c :: rest =>
    if c = '-' ∧ rest.head? = some '-' then []
    else c :: stripComment rest

/-- Tail of Rust `split_whitespace`: `cur` holds the (reversed) chunk being
accumulated. -/
def splitWsGo (cur : List Char) : List Char → List (List Char)
  | [] => if cur.isEmpty then [] else [cur.reverse]
  | c :: rest =>
    if isWsChar c then
      if cur.isEmpty then splitWsGo [] rest
      else cur.reverse :: splitWsGo [] rest
    else splitWsGo (c :: cur) rest

/-- Rust `str::split_whitespace`: maximal non-whitespace chunks, in order. -/
def splitWs (s : List Char) : List (List Char) := splitWsGo [] s

/-- `VhdlParser::clean_content`: strip line comments per line, join the lines
with single spaces, collapse whitespace runs, and lowercase. -/
def cleanContent (s : List Char) : List Char :=
  lowerStr (List.intercalate [' ']
    (splitWs (List.intercalate [' '] ((linesRust s).map stripComment))))

/-! ## Entity name (`extract_entity_name`)

The regex `entity\s+(\w+)\s+is` is embedded as a scanner that tries each
start position from the left; at a fixed start the `\s+`/`\w+` runs are
forced to be maximal because the classes `\s`, `\w` and the following
literals are pairwise incompatible. -/

/-- Try the pattern `entity\s+(\w+)\s+is` anchored at the head of `s`,
returning the captured identifier. -/
def matchEntityAt (s : List Char) : Option (List Char) :=
  if "entity".data.isPrefixOf s then
    let s1 := s.drop 6
    if (s1.takeWhile isWsChar).isEmpty then none
    else
      let s2 := s1.dropWhile isWsChar
      let nm := s2.takeWhile isWordChar
      if nm.isEmpty then none
      else
        let s3 := s2.dropWhile isWordChar
        if (s3.takeWhile isWsChar).isEmpty then none
        else
          let s4 := s3.dropWhile isWsChar
          if "is".data.isPrefixOf s4 then some nm else none
  else none

/-- Leftmost match of `entity\s+(\w+)\s+is`: the body of
`VhdlParser::extract_entity_name` (a `None` result is the
"Could not find entity name" error). -/
def findEntityName : List Char → Option (List Char)
  | [] => none
  | c :: rest =>
    match matchEntityAt (c :: rest) with
    | some nm => some nm
    | none => findEntityName rest

/-! ## Generics (`extract_generics`)

The section is located with the non-greedy regex `generic\s*\((.*?)\)\s*;`:
the capture is the shortest text ending just before a `)` that is followed by
optional whitespace and a `;`.  `.` does not match `\n`. -/

/-- The lazy part `(.*?)\)\s*;`: scan forward accumulating characters until
the first `)` whose following text is optional whitespace then `;`. -/
def lazyScanGen (acc : List Char) : List Char → Option (List Char)
  | [] => none
  | c :: rest =>
    if c = ')' ∧ (rest.dropWhile isWsChar).head? = some ';' then some acc.reverse
    else if c = '\n' then none
    else lazyScanGen (c :: acc) rest

/-- Try `generic\s*\((.*?)\)\s*;` anchored at the head of `s`, returning the
captured interior. -/
def genericInteriorAt (s : List Char) : Option (List Char) :=
  if "generic".data.isPrefixOf s then
    match (s.drop 7).dropWhile isWsChar with
    | c :: t => if c = '(' then lazyScanGen [] t else none
    | [] => none
  else none

/-- Leftmost match of the generic-section regex. -/
def genericInterior : List Char → Option (List Char)
  | [] => none
  | c :: rest =>
    match genericInteriorAt (c :: rest) with
    | some i => some i
    | none => genericInterior rest

/-- Character class `[^;,)]` of the default-value capture. -/
def isDefChar (c : Char) : Bool := !(c = ';' || c = ',' || c = ')')

/-- Try the per-generic regex `(\w+)\s*:\s*(\w+)(?:\s*:=\s*([^;,)]+))?`
anchored at the head of `s`.  Returns the parsed generic together with the
number of characters up to the end of the match (used to continue a
`captures_iter` style scan). -/
def matchGenericAt (s : List Char) : Option (VhdlGeneric × Nat) :=
  let nm := s.takeWhile isWordChar
  if nm.isEmpty then none
  else
    match (s.dropWhile isWordChar).dropWhile isWsChar with
    | c :: s2 =>
      if c = ':' then
        let s3 := s2.dropWhile isWsChar
        let ty := s3.takeWhile isWordChar
        if ty.isEmpty then none
        else
          let s4 := s3.dropWhile isWordChar
          match (s4.dropWhile isWsChar) with
          | a :: b :: s6 =>
            if a = ':' ∧ b = '=' then
              let s7 := s6.dropWhile isWsChar
              let dv := s7.takeWhile isDefChar
              if dv.isEmpty then some (⟨nm, ty, none⟩, s.length - s4.length)
              else some (⟨nm, ty, some (trimWs dv)⟩, s.length - (s7.length - dv.length))
            else some (⟨nm, ty, none⟩, s.length - s4.length)
          | _ => some (⟨nm, ty, none⟩, s.length - s4.length)
      else none
    | [] => none

/-- `captures_iter` over the per-generic regex: emit the leftmost match, then
continue after its end; on failure advance one position.  The fuel argument
dominates the number of steps (each step consumes at least one character). -/
def genericsIterFuel : Nat → List Char → List VhdlGeneric
  | 0, _ => []
  | fuel + 1, s =>
    match matchGenericAt s with
    | some (g, k) => g :: genericsIterFuel fuel (s.drop k)
    | none =>
      match s with
      | [] => []
      | _ :: t => genericsIterFuel fuel t

/-- All matches of the per-generic regex, in order. -/
def genericsRun (s : List Char) : List VhdlGeneric := genericsIterFuel s.length s

/-- `VhdlParser::extract_generics` (the `Result` is always `Ok` in the
source, so the embedding is total). -/
def extractGenerics (content : List Char) : List VhdlGeneric :=
  match genericInterior content with
  | none => []
  | some i => genericsRun i

/-! ## Ports (`extract_ports` and its helpers) -/

/-- Case-insensitive literal prefix test (regex `(?i)` literals). -/
def ciPrefixOf : List Char → List Char → Bool
  | [], _ => true
  | _ :: _, [] => false
  | p :: ps, c :: cs => p = lowerChar c && ciPrefixOf ps cs

/-- Try `(?i)port\s*\(` anchored at the head of `s`; return the text after
the opening parenthesis. -/
def portOpenAt (s : List Char) : Option (List Char) :=
  if ciPrefixOf "port".data s then
    match (s.drop 4).dropWhile isWsChar with
    | c :: t => if c = '(' then some t else none
    | [] => none
  else none

/-- Leftmost match of `(?i)port\s*\(`: the suffix that follows the opening
parenthesis of the ports section. -/
def findPortTail : List Char → Option (List Char)
  | [] => none
  | c :: rest =>
    match portOpenAt (c :: rest) with
    | some t => some t
    | none => findPortTail rest

/-- Balanced-parenthesis scan of `extract_ports`: `d` is the depth including
the already-consumed opening parenthesis; the interior stops just before the
closing parenthesis that brings the depth back to zero.  `none` models the
"Could not find matching closing parenthesis" situation. -/
def scanInterior : Int → List Char → Option (List Char)
  | _, [] => none
  | d, c :: rest =>
    if c = '(' then (scanInterior (d + 1) rest).map (fun l => c :: l)
    else if c = ')' then
      if d - 1 = 0 then some []
      else (scanInterior (d - 1) rest).map (fun l => c :: l)
    else (scanInterior d rest).map (fun l => c :: l)

/-- Scanner state step of `split_port_declarations_improved`: `current` is
the clause being accumulated and `depth` the parenthesis depth.  At a
depth-zero `;` the trimmed clause is emitted when non-empty (when the
pending text is whitespace-only the source keeps it and just discards the
separator). -/
def splitGo (current : List Char) (depth : Int) : List Char → List (List Char)
  | [] => if (trimWs current).isEmpty then [] else [trimWs current]
  | c :: rest =>
    if c = '(' then splitGo (current ++ [c]) (depth + 1) rest
    else if c = ')' then splitGo (current ++ [c]) (depth - 1) rest
    else if c = ';' ∧ depth = 0 then
      if (trimWs current).isEmpty then splitGo current depth rest
      else trimWs current :: splitGo [] depth rest
    else splitGo (current ++ [c]) depth rest

/-- `TestbenchGenerator`-side clause splitter
`split_port_declarations_improved`. -/
def splitPortDeclarationsImproved (content : List Char) : List (List Char) :=
  splitGo [] 0 content

/-- Clause cleanup at the top of `parse_port_declaration_improved`:
trim, replace `'\n'` by a space, delete `'\r'`, collapse whitespace. -/
def normalizeDecl (d : List Char) : List Char :=
  List.intercalate [' ']
    (splitWs (((trimWs d).map (fun c => if c = '\n' then ' ' else c)).filter
      (fun c => c != '\r')))

/-- One branch `lit` of the alternation `(in|out|inout)` is viable at `s`
when the literal matches case-insensitively and is followed by `\s+\w+`
(the remainder of the pattern after the type is optional and cannot fail). -/
def dirOk (lit : List Char) (s : List Char) : Bool :=
  ciPrefixOf lit s &&
    (let r := s.drop lit.length
     !(r.takeWhile isWsChar).isEmpty &&
       !((r.dropWhile isWsChar).takeWhile isWordChar).isEmpty)

/-- The alternation `(in|out|inout)` with the regex's left-to-right branch
order; returns the (lowercased) matched text and the remaining input. -/
def matchDirection (s : List Char) : Option (List Char × List Char) :=
  if dirOk "in".data s then some ("in".data, s.drop 2)
  else if dirOk "out".data s then some ("out".data, s.drop 3)
  else if dirOk "inout".data s then some ("inout".data, s.drop 5)
  else none

/-- The optional range group `(?:\s*(\([^)]*\)))?`: optional whitespace, an
opening parenthesis, a maximal run of non-`)` characters, and a `)`.  The
capture therefore never contains a nested closing parenthesis. -/
def matchRange (s : List Char) : Option (List Char) :=
  match s.dropWhile isWsChar with
  | c :: s8 =>
    if c = '(' then
      let b := s8.takeWhile (fun x => x != ')')
      match s8.dropWhile (fun x => x != ')') with
      | c2 :: _ => if c2 = ')' then some ('(' :: b ++ [')']) else none
      | [] => none
    else none
  | [] => none

/-- Try the port regex `(?i)(\w+)\s*:\s*(in|out|inout)\s+(\w+(?:_\w+)*)`
`(?:\s*(\([^)]*\)))?` anchored at the head of `s` (`(?:_\w+)*` is subsumed
by `\w+` since `\w` contains `_`). -/
def matchPortAt (s : List Char) : Option VhdlPort :=
  let nm := s.takeWhile isWordChar
  if nm.isEmpty then none
  else
    match (s.dropWhile isWordChar).dropWhile isWsChar with
    | c :: s2 =>
      if c = ':' then
        let s3 := s2.dropWhile isWsChar
        match matchDirection s3 with
        | none => none
        | some (dir, s4) =>
          let s5 := s4.dropWhile isWsChar
          let ty := s5.takeWhile isWordChar
          let s6 := s5.dropWhile isWordChar
          some ⟨lowerStr nm, dir, lowerStr ty, matchRange s6⟩
      else none
    | [] => none

/-- Leftmost match of the port regex. -/
def findPortMatch : List Char → Option VhdlPort
  | [] => none
  | c :: rest =>
    match matchPortAt (c :: rest) with
    | some p => some p
    | none => findPortMatch rest

/-- `VhdlParser::parse_port_declaration_improved`. -/
def parsePortDeclarationImproved (decl : List Char) : Option VhdlPort :=
  findPortMatch (normalizeDecl decl)

/-- `VhdlParser::extract_ports` (the `Result` is always `Ok` in the source:
a missing or unbalanced ports section yields an empty list). -/
def extractPorts (content : List Char) : List VhdlPort :=
  match findPortTail content with
  | none => []
  | some t =>
    match scanInterior 1 t with
    | none => []
    | some interior =>
      (splitPortDeclarationsImproved interior).filterMap parsePortDeclarationImproved

/-- `VhdlParser::parse_content`: clean, extract the entity name (the only
fatal failure), then the generics and ports. -/
def parseContent (content : List Char) : Option VhdlEntity :=
  let cleaned := cleanContent content
  match findEntityName cleaned with
  | none => none
  | some nm => some ⟨nm, extractGenerics cleaned, extractPorts cleaned⟩

/-! ## Value resolver (`resolve_generic_range`) -/

/-- Step of Rust `str::replace` for a non-empty pattern: replace each
leftmost non-overlapping occurrence.  The fuel dominates the number of
steps (each step consumes at least one character). -/
def replaceFuel (pat rep : List Char) : Nat → List Char → List Char
  | 0, s => s
  | _ + 1, [] => []
  | fuel + 1, c :: rest =>
    if pat.isPrefixOf (c :: rest) then
      rep ++ replaceFuel pat rep fuel ((c :: rest).drop pat.length)
    else c :: replaceFuel pat rep fuel rest

/-- Rust `str::replace` (an empty pattern matches at every boundary). -/
def replaceAll (s pat rep : List Char) : List Char :=
  match pat with
  | [] => rep ++ s.flatMap (fun c => c :: rep)
  | _ :: _ => replaceFuel pat rep s.length s

/-- The fixed fallback constant of `resolve_generic_range`. -/
def fallbackValue : List Char := "32".data

/-- The per-generic value selection of `resolve_generic_range`, as the
source computes it: with a config, the override map is consulted first with
the original-case name and then with the upper-cased name; otherwise (and
when the lookup misses) the declared default applies, else the fallback. -/
def codeValue (g : VhdlGeneric) (config : Option TestbenchConfig) : List Char :=
  match config with
  | some cfg =>
    match cfg.generics.bind (fun m =>
        match m.lookup g.name with
        | some v => some v
        | none => m.lookup (upperStr g.name)) with
    | some v => v
    | none => g.default_value.getD fallbackValue
  | none => g.default_value.getD fallbackValue

/-- `TestbenchGenerator::resolve_generic_range`: per generic, in declaration
order, replace the upper-cased spelling and then the original spelling of
its name by the selected value. -/
def resolveGenericRange (range : List Char) (generics : List VhdlGeneric)
    (config : Option TestbenchConfig) : List Char :=
  generics.foldl (fun resolved g =>
    let value := codeValue g config
    replaceAll (replaceAll resolved (upperStr g.name) value) g.name value) range

/-! ## Harness synthesizer text builders -/

/-- Decimal digit character. -/
def digitChar (d : Nat) : Char :=
  if d = 0 then '0' else if d = 1 then '1' else if d = 2 then '2'
  else if d = 3 then '3' else if d = 4 then '4' else if d = 5 then '5'
  else if d = 6 then '6' else if d = 7 then '7' else if d = 8 then '8'
  else '9'

/-- Decimal rendering of a natural number, with fuel on the digit count. -/
def natStrFuel : Nat → Nat → List Char
  | 0, _ => []
  | fuel + 1, n =>
    if n < 10 then [digitChar n]
    else natStrFuel fuel (n / 10) ++ [digitChar (n % 10)]

/-- Decimal rendering of a natural number (Rust `format!` of an integer). -/
def natStr (n : Nat) : List Char := natStrFuel (n + 1) n

/-- The VHDL bit literal `'0'`. -/
def lit0 : List Char := [sq, '0', sq]

/-- The VHDL bit literal `'1'`. -/
def lit1 : List Char := [sq, '1', sq]

/-- The per-type initializer suffix of `generate_internal_signals`. -/
def typeDefault (tyUpper : List Char) : List Char :=
  if tyUpper = "STD_LOGIC".data then " := ".data ++ lit0
  else if tyUpper = "STD_LOGIC_VECTOR".data then
    " := (others => ".data ++ lit0 ++ ")".data
  else if tyUpper = "INTEGER".data then " := 0".data
  else " := ".data ++ lit0

/-- One signal declaration line of `generate_internal_signals`. -/
def portSignalDecl (generics : List VhdlGeneric) (config : Option TestbenchConfig)
    (p : VhdlPort) : List Char :=
  "signal tb_".data ++ p.name ++ " : ".data ++ upperStr p.signal_type ++
    (match p.range with
     | some r => resolveGenericRange r generics config
     | none => []) ++
    typeDefault (upperStr p.signal_type) ++ ";".data

/-- Rust `str::contains` for a literal pattern: substring test. -/
def containsSub (pat : List Char) : List Char → Bool
  | [] => pat.isEmpty
  | c :: rest => pat.isPrefixOf (c :: rest) || containsSub pat rest

/-- Number of positions at which `pat` occurs in a string (a measuring
device for stating properties of generated text). -/
def countOccur (pat : List Char) : List Char → Nat
  | [] => 0
  | c :: rest => (if pat.isPrefixOf (c :: rest) then 1 else 0) + countOccur pat rest

/-- The automatically added clock signal declaration. -/
def tbClkDecl : List Char :=
  "signal tb_clk : STD_LOGIC := ".data ++ lit0 ++ ";".data

/-- `TestbenchGenerator::generate_internal_signals`: one declaration per
port, plus a `tb_clk` declaration when no port name contains `clk`. -/
def generateInternalSignals (ports : List VhdlPort) (generics : List VhdlGeneric)
    (config : Option TestbenchConfig) : List Char :=
  let signals := ports.map (portSignalDecl generics config)
  let signals :=
    if ports.any (fun p => containsSub "clk".data (lowerStr p.name)) then signals
    else signals ++ [tbClkDecl]
  List.intercalate ['\n'] signals

/-- `TestbenchGenerator::generate_clock_generation`: two half-period waits,
defaulting to a 10 ns period, with integer division by two. -/
def generateClockGeneration (config : Option TestbenchConfig) : List Char :=
  let period := (config.bind (fun c => c.clock_period_ns)).getD 10
  let halfPeriod := period / 2
  "    tb_clk <= ".data ++ lit0 ++ ";\n    wait for ".data ++ natStr halfPeriod ++
    " ns;\n    tb_clk <= ".data ++ lit1 ++ ";\n    wait for ".data ++
    natStr halfPeriod ++ " ns;".data

/-- Output-format selector inside the test-vector loop: hex-string rendering
for vector-shaped expected values, bit image otherwise. -/
def formatFunc (expectedValue : List Char) : List Char :=
  if "x\"".data.isPrefixOf expectedValue || containsSub "downto".data expectedValue
  then "to_hstring".data
  else "std_logic".data ++ [sq] ++ "image".data

/-- One `assert` line of the test-vector loop. -/
def assertLine (signal expectedValue : List Char) : List Char :=
  "    assert tb_".data ++ signal ++ " = ".data ++ expectedValue ++
    " report \"Expected ".data ++ signal ++ " = ".data ++ expectedValue ++
    ", got \" & ".data ++ formatFunc expectedValue ++ "(tb_".data ++ signal ++
    ") severity error;\n".data

/-- The stimulus text of the `i`-th (0-based) test vector. -/
def testVectorBlock (i : Nat) (v : TestVector) : List Char :=
  (match v.description with
   | some d => "    -- Test ".data ++ natStr (i + 1) ++ ": ".data ++ d ++ "\n".data
   | none => "    -- Test vector ".data ++ natStr (i + 1) ++ "\n".data) ++
  (v.inputs.map (fun p =>
    "    tb_".data ++ p.1 ++ " <= ".data ++ p.2 ++ ";\n".data)).flatten ++
  "    wait for ".data ++ natStr v.time_ns ++ " ns;\n".data ++
  (match v.expected_outputs with
   | some m => (m.map (fun p => assertLine p.1 p.2)).flatten
   | none => []) ++
  "\n".data

/-- `TestbenchGenerator::generate_basic_stack_test` (a fixed text, the
`ports` argument is unused in the source as well). -/
def generateBasicStackTest (_ports : List VhdlPort) : List Char :=
  "    -- Basic stack test\n    -- Test push operation\n    tb_push <= ".data ++
  lit1 ++ ";\n    tb_pop <= ".data ++ lit0 ++
  ";\n    tb_data_in <= x\"DEADBEEF\";\n    wait for 20 ns;\n    tb_push <= ".data ++
  lit0 ++ ";\n    wait for 20 ns;\n\n    -- Test pop operation\n    tb_pop <= ".data ++
  lit1 ++ ";\n    wait for 20 ns;\n    tb_pop <= ".data ++ lit0 ++
  ";\n    wait for 20 ns;\n\n".data

/-- Stimulus lines generated for one port by `generate_basic_test`. -/
def basicTestForPort (p : VhdlPort) : List Char :=
  if p.direction = "in".data ∧ p.name ≠ "clk".data ∧ p.name ≠ "rst".data then
    if upperStr p.signal_type = "STD_LOGIC".data then
      "    tb_".data ++ p.name ++ " <= ".data ++ lit1 ++
      ";\n    wait for 20 ns;\n    tb_".data ++ p.name ++ " <= ".data ++ lit0 ++
      ";\n    wait for 20 ns;\n".data
    else if upperStr p.signal_type = "STD_LOGIC_VECTOR".data then
      "    tb_".data ++ p.name ++ " <= (others => ".data ++ lit1 ++
      ");\n    wait for 20 ns;\n    tb_".data ++ p.name ++
      " <= (others => ".data ++ lit0 ++ ");\n    wait for 20 ns;\n".data
    else []
  else []

/-- `TestbenchGenerator::generate_basic_test`. -/
def generateBasicTest (ports : List VhdlPort) : List Char :=
  "    -- Basic stimulus\n".data ++ (ports.map basicTestForPort).flatten ++ "\n".data

/-- The reset sequence emitted unconditionally at the top of the stimulus
process. -/
def resetBlock (resetDuration : Nat) : List Char :=
  "    -- Reset sequence\n    tb_rst <= ".data ++ lit1 ++
  ";\n    wait for ".data ++ natStr resetDuration ++
  " ns;\n    tb_rst <= ".data ++ lit0 ++ ";\n    wait for 20 ns;\n\n".data

/-- The middle part of the stimulus process: the rendered test vectors when
the config provides them, otherwise one of the two basic test sequences. -/
def stimulusMiddle (ports : List VhdlPort) (config : Option TestbenchConfig) :
    List Char :=
  match config with
  | some cfg =>
    match cfg.test_vectors with
    | some tvs =>
      "    -- Test vectors\n".data ++
        (tvs.enum.map (fun p => testVectorBlock p.1 p.2)).flatten
    | none => generateBasicStackTest ports
  | none => generateBasicTest ports

/-- The fixed trailer of the stimulus process. -/
def stimulusTail : List Char :=
  "    -- End of test\n    report \"Test completed\" severity note;\n".data

/-- `TestbenchGenerator::generate_stimulus_process`. -/
def generateStimulusProcess (ports : List VhdlPort)
    (config : Option TestbenchConfig) : List Char :=
  resetBlock ((config.bind (fun c => c.reset_duration_ns)).getD 100) ++
    stimulusMiddle ports config ++ stimulusTail

/-! ## Specification-side definitions

These follow the wording of the specification; the claims compare them with
the definitions translated from the source. -/

/-- The override value for a key, when a config with an override mapping is
present. -/
def overrideFor (config : Option TestbenchConfig) (key : List Char) :
    Option (List Char) :=
  (config.bind (fun c => c.generics)).bind (fun m => m.lookup key)

/-- Value selection as the specification words it: the first available of
(a) the override keyed by the original-case name, (b) the override keyed by
the upper-cased name, (c) the declared default, (d) the fixed fallback. -/
def specValue (g : VhdlGeneric) (config : Option TestbenchConfig) : List Char :=
  match overrideFor config g.name with
  | some v => v
  | none =>
    match overrideFor config (upperStr g.name) with
    | some v => v
    | none => g.default_value.getD fallbackValue

/-- A clock block consisting of exactly two waits of `half` nanoseconds, as
the specification describes the generated clock process. -/
def specClockBlock (half : Nat) : List Char :=
  "    tb_clk <= ".data ++ lit0 ++ ";\n    wait for ".data ++ natStr half ++
    " ns;\n    tb_clk <= ".data ++ lit1 ++ ";\n    wait for ".data ++
    natStr half ++ " ns;".data

/-- The constant text that opens every generated stimulus process, up to the
reset duration number. -/
def resetPrefix : List Char :=
  "    -- Reset sequence\n    tb_rst <= ".data ++ lit1 ++ ";\n    wait for ".data

/-- Net parenthesis contribution of a string (opens minus closes). -/
def netDepth : List Char → Int
  | [] => 0
  | c :: cs => (if c = '(' then 1 else if c = ')' then -1 else 0) + netDepth cs

/-- `noSplitSemisB dep s` holds when scanning `s` from parenthesis depth
`dep` meets no `;` at depth zero (so the clause splitter would not split
inside `s`). -/
def noSplitSemisB (dep : Int) : List Char → Bool
  | [] => true
  | c :: cs =>
    if c = '(' then noSplitSemisB (dep + 1) cs
    else if c = ')' then noSplitSemisB (dep - 1) cs
    else if c = ';' then dep != 0 && noSplitSemisB dep cs
    else noSplitSemisB dep cs

/-! ## General lemmas about the scanners -/

/-- A `takeWhile` run ends exactly at the first failing character. -/
theorem takeWhile_app {p : Char → Bool} {xs : List Char} {y : Char}
    (ys : List Char) (hx : ∀ c ∈ xs, p c = true) (hy : p y = false) :
    (xs ++ y :: ys).takeWhile p = xs := by
  induction xs with
  | nil => simp [hy]
  | cons a as ih =>
    have ha : p a = true := hx a (by simp)
    simp only [List.cons_append, List.takeWhile_cons_of_pos ha]
    rw [ih (fun c hc => hx c (by simp [hc]))]

/-- A `dropWhile` run ends exactly at the first failing character. -/
theorem dropWhile_app {p : Char → Bool} {xs : List Char} {y : Char}
    (ys : List Char) (hx : ∀ c ∈ xs, p c = true) (hy : p y = false) :
    (xs ++ y :: ys).dropWhile p = y :: ys := by
  induction xs with
  | nil => simp [hy]
  | cons a as ih =>
    have ha : p a = true := hx a (by simp)
    simp only [List.cons_append, List.dropWhile_cons_of_pos ha]
    exact ih (fun c hc => hx c (by simp [hc]))

/-- Word characters are not whitespace. -/
theorem word_not_ws {c : Char} (h : isWordChar c = true) : isWsChar c = false := by
  by_contra hw
  have hws : isWsChar c = true := by
    cases hh : isWsChar c
    · exact absurd hh hw
    · rfl
  have : c = ' ' ∨ c = '\t' ∨ c = '\n' ∨ c = '\x0b' ∨ c = '\x0c' ∨ c = '\r' := by
    simpa [isWsChar, or_assoc] using hws
  rcases this with rfl | rfl | rfl | rfl | rfl | rfl <;> exact absurd h (by decide)

/-- A string is a prefix (in the executable sense) of itself followed by
anything. -/
theorem isPrefixOf_append_self (xs ys : List Char) :
    xs.isPrefixOf (xs ++ ys) = true := by
  induction xs with
  | nil => simp [List.isPrefixOf]
  | cons a as ih => simp [List.isPrefixOf, ih]

/-- Members of a `takeWhile` are members of the original list. -/
theorem mem_of_mem_takeWhile {p : Char → Bool} {c : Char} :
    ∀ {l : List Char}, c ∈ l.takeWhile p → c ∈ l := by
  intro l
  induction l with
  | nil => simp
  | cons a as ih =>
    rw [List.takeWhile_cons]
    by_cases hp : p a = true
    · simp only [hp, if_true, List.mem_cons]
      rintro (rfl | h)
      · simp
      · exact Or.inr (ih h)
    · simp [hp]

/-- Members of a `dropWhile` are members of the original list. -/
theorem mem_of_mem_dropWhile {p : Char → Bool} {c : Char} :
    ∀ {l : List Char}, c ∈ l.dropWhile p → c ∈ l := by
  intro l
  induction l with
  | nil => simp
  | cons a as ih =>
    rw [List.dropWhile_cons]
    by_cases hp : p a = true
    · simp only [hp, if_true]
      exact fun h => List.mem_cons_of_mem _ (ih h)
    · simp [hp]

/-- Lowercasing a character yields either the character itself or a
lowercase letter. -/
theorem lowerChar_cases (c : Char) :
    lowerChar c = c ∨ lowerChar c ∈ "abcdefghijklmnopqrstuvwxyz".data := by
  by_cases h1 : c = 'A'
  · subst h1; right; decide
  by_cases h2 : c = 'B'
  · subst h2; right; decide
  by_cases h3 : c = 'C'
  · subst h3; right; decide
  by_cases h4 : c = 'D'
  · subst h4; right; decide
  by_cases h5 : c = 'E'
  · subst h5; right; decide
  by_cases h6 : c = 'F'
  · subst h6; right; decide
  by_cases h7 : c = 'G'
  · subst h7; right; decide
  by_cases h8 : c = 'H'
  · subst h8; right; decide
  by_cases h9 : c = 'I'
  · subst h9; right; decide
  by_cases h10 : c = 'J'
  · subst h10; right; decide
  by_cases h11 : c = 'K'
  · subst h11; right; decide
  by_cases h12 : c = 'L'
  · subst h12; right; decide
  by_cases h13 : c = 'M'
  · subst h13; right; decide
  by_cases h14 : c = 'N'
  · subst h14; right; decide
  by_cases h15 : c = 'O'
  · subst h15; right; decide
  by_cases h16 : c = 'P'
  · subst h16; right; decide
  by_cases h17 : c = 'Q'
  · subst h17; right; decide
  by_cases h18 : c = 'R'
  · subst h18; right; decide
  by_cases h19 : c = 'S'
  · subst h19; right; decide
  by_cases h20 : c = 'T'
  · subst h20; right; decide
  by_cases h21 : c = 'U'
  · subst h21; right; decide
  by_cases h22 : c = 'V'
  · subst h22; right; decide
  by_cases h23 : c = 'W'
  · subst h23; right; decide
  by_cases h24 : c = 'X'
  · subst h24; right; decide
  by_cases h25 : c = 'Y'
  · subst h25; right; decide
  by_cases h26 : c = 'Z'
  · subst h26; right; decide
  left
  unfold lowerChar
  rw [if_neg h1, if_neg h2, if_neg h3, if_neg h4, if_neg h5, if_neg h6, if_neg h7, if_neg h8, if_neg h9, if_neg h10, if_neg h11, if_neg h12, if_neg h13, if_neg h14, if_neg h15, if_neg h16, if_neg h17, if_neg h18, if_neg h19, if_neg h20, if_neg h21, if_neg h22, if_neg h23, if_neg h24, if_neg h25, if_neg h26]

/-- Lowercasing is idempotent. -/
theorem lowerChar_idem (c : Char) : lowerChar (lowerChar c) = lowerChar c := by
  rcases lowerChar_cases c with h | h
  · rw [h]
    exact h
  · have hl : "abcdefghijklmnopqrstuvwxyz".data = ['a', 'b', 'c', 'd', 'e', 'f', 'g', 'h', 'i', 'j', 'k', 'l', 'm', 'n', 'o', 'p', 'q', 'r', 's', 't', 'u', 'v', 'w', 'x', 'y', 'z'] := rfl
    rw [hl] at h
    simp only [List.mem_cons, List.not_mem_nil, or_false] at h
    rcases h with h|h|h|h|h|h|h|h|h|h|h|h|h|h|h|h|h|h|h|h|h|h|h|h|h|h <;> rw [h] <;> decide

/-- Every character of a lowercased string is fixed by lowercasing. -/
theorem lowerChar_of_mem_lowerStr {c : Char} {s : List Char}
    (h : c ∈ lowerStr s) : lowerChar c = c := by
  rcases List.mem_map.mp h with ⟨d, _, rfl⟩
  exact lowerChar_idem d

/-- A string all of whose characters are fixed by lowercasing is fixed by
`lowerStr`. -/
theorem lowerStr_fixed {s : List Char} (h : ∀ c ∈ s, lowerChar c = c) :
    lowerStr s = s := by
  unfold lowerStr
  rw [List.map_congr_left h]
  simp

/-- `filterMap` keeps exactly the elements on which the function succeeds. -/
theorem filterMap_length_add_countP (l : List (List Char))
    (f : List Char → Option VhdlPort) :
    (l.filterMap f).length + l.countP (fun a => (f a).isNone) = l.length := by
  induction l with
  | nil => simp
  | cons a as ih =>
    rw [List.filterMap_cons, List.countP_cons]
    cases hf : f a
    · simp only [hf, Option.isNone_none, if_true, List.length_cons]
      omega
    · simp only [hf, Option.isNone_some, Bool.false_eq_true, if_false, List.length_cons]
      omega

/-- The code's per-generic value selection agrees with the specification's
precedence chain. -/
theorem codeValue_eq_specValue (g : VhdlGeneric) (config : Option TestbenchConfig) :
    codeValue g config = specValue g config := by
  cases config with
  | none => rfl
  | some cfg =>
    cases hg : cfg.generics with
    | none => simp [codeValue, specValue, overrideFor, hg]
    | some m =>
      cases hl : m.lookup g.name with
      | some v => simp [codeValue, specValue, overrideFor, hg, hl]
      | none =>
        cases hl2 : m.lookup (upperStr g.name) with
        | some v => simp [codeValue, specValue, overrideFor, hg, hl, hl2]
        | none => simp [codeValue, specValue, overrideFor, hg, hl, hl2]

/-- A successful anchored entity match captures characters of the input. -/
theorem matchEntityAt_subset {s nm : List Char} (h : matchEntityAt s = some nm) :
    ∀ c ∈ nm, c ∈ s := by
  intro c hc
  simp only [matchEntityAt] at h
  split at h
  · split at h
    · exact absurd h (by simp)
    · split at h
      · exact absurd h (by simp)
      · split at h
        · exact absurd h (by simp)
        · split at h
          · have hnm : nm = ((s.drop 6).dropWhile isWsChar).takeWhile isWordChar := by
              injection h with h
              exact h.symm
            subst hnm
            exact List.mem_of_mem_drop
              (mem_of_mem_dropWhile (mem_of_mem_takeWhile hc))
          · exact absurd h (by simp)
  · exact absurd h (by simp)

/-- Characters of the extracted entity name occur in the scanned text. -/
theorem findEntityName_mem :
    ∀ {s nm : List Char}, findEntityName s = some nm → ∀ c ∈ nm, c ∈ s := by
  intro s
  induction s with
  | nil => intro nm h; exact absurd h (by simp [findEntityName])
  | cons a as ih =>
    intro nm h c hc
    rw [findEntityName] at h
    cases hm : matchEntityAt (a :: as) with
    | some nm' =>
      rw [hm] at h
      injection h with h
      subst h
      exact matchEntityAt_subset hm c hc
    | none =>
      rw [hm] at h
      exact List.mem_cons_of_mem _ (ih h c hc)

/-- The alternation of the port regex only produces the three direction
keywords. -/
theorem matchDirection_shape {s : List Char} {d r : List Char}
    (h : matchDirection s = some (d, r)) :
    d = "in".data ∨ d = "out".data ∨ d = "inout".data := by
  unfold matchDirection at h
  split at h
  · injection h with h
    injection h with h1 h2
    exact Or.inl h1.symm
  · split at h
    · injection h with h
      injection h with h1 h2
      exact Or.inr (Or.inl h1.symm)
    · split at h
      · injection h with h
        injection h with h1 h2
        exact Or.inr (Or.inr h1.symm)
      · exact absurd h (by simp)

/-- An anchored port match always has a non-empty name and one of the three
directions. -/
theorem matchPortAt_shape {s : List Char} {p : VhdlPort}
    (h : matchPortAt s = some p) :
    p.name ≠ [] ∧ (p.direction = "in".data ∨ p.direction = "out".data ∨
      p.direction = "inout".data) := by
  simp only [matchPortAt] at h
  by_cases h1 : (s.takeWhile isWordChar).isEmpty
  · rw [if_pos h1] at h
    exact absurd h (by simp)
  · rw [if_neg h1] at h
    cases hd : (s.dropWhile isWordChar).dropWhile isWsChar with
    | nil => rw [hd] at h; exact absurd h (by simp)
    | cons c s2 =>
      rw [hd] at h
      dsimp only at h
      by_cases hc : c = ':'
      · rw [if_pos hc] at h
        cases hmd : matchDirection (s2.dropWhile isWsChar) with
        | none => rw [hmd] at h; exact absurd h (by simp)
        | some pr =>
          obtain ⟨dir, s4⟩ := pr
          rw [hmd] at h
          injection h with h
          subst h
          refine ⟨?_, matchDirection_shape hmd⟩
          simp only [lowerStr, ne_eq, List.map_eq_nil_iff]
          simpa using h1
      · rw [if_neg hc] at h
        exact absurd h (by simp)

/-- A leftmost port match always has a non-empty name and one of the three
directions. -/
theorem findPortMatch_shape :
    ∀ {s : List Char} {p : VhdlPort}, findPortMatch s = some p →
      p.name ≠ [] ∧ (p.direction = "in".data ∨ p.direction = "out".data ∨
        p.direction = "inout".data) := by
  intro s
  induction s with
  | nil => intro p h; exact absurd h (by simp [findPortMatch])
  | cons a as ih =>
    intro p h
    rw [findPortMatch] at h
    cases hm : matchPortAt (a :: as) with
    | some q =>
      rw [hm] at h
      injection h with h
      subst h
      exact matchPortAt_shape hm
    | none =>
      rw [hm] at h
      exact ih h

/-- `ciPrefixOf` unfolding on cons. -/
theorem ciPrefixOf_cons (p c : Char) (ps cs : List Char) :
    ciPrefixOf (p :: ps) (c :: cs) = ((p = lowerChar c) && ciPrefixOf ps cs) := rfl

/-- `ciPrefixOf` of the empty pattern. -/
theorem ciPrefixOf_nil (cs : List Char) : ciPrefixOf [] cs = true := rfl

theorem matchPortAt_clause (nm ty body : List Char)
    (hnm : nm ≠ []) (hnmw : ∀ c ∈ nm, isWordChar c = true)
    (hty : ty ≠ []) (htyw : ∀ c ∈ ty, isWordChar c = true)
    (hbody : ∀ c ∈ body, (c != ')') = true) :
    matchPortAt (nm ++ ' ' :: ':' :: ' ' :: 'i' :: 'n' :: ' ' ::
        (ty ++ ' ' :: '(' :: (body ++ [')']))) =
      some ⟨lowerStr nm, "in".data, lowerStr ty, some ('(' :: (body ++ [')']))⟩ := by
  have hnmE : nm.isEmpty = false := by
    cases nm with
    | nil => exact absurd rfl hnm
    | cons a l => rfl
  have h1 : List.takeWhile isWordChar (nm ++ ' ' :: ':' :: ' ' :: 'i' :: 'n' :: ' ' ::
      (ty ++ ' ' :: '(' :: (body ++ [')']))) = nm :=
    takeWhile_app _ hnmw (by decide)
  have h2 : List.dropWhile isWordChar (nm ++ ' ' :: ':' :: ' ' :: 'i' :: 'n' :: ' ' ::
      (ty ++ ' ' :: '(' :: (body ++ [')']))) = ' ' :: ':' :: ' ' :: 'i' :: 'n' :: ' ' ::
      (ty ++ ' ' :: '(' :: (body ++ [')'])) :=
    dropWhile_app _ hnmw (by decide)
  have h3 : List.takeWhile isWordChar (ty ++ ' ' :: '(' :: (body ++ [')'])) = ty :=
    takeWhile_app _ htyw (by decide)
  have h4 : List.dropWhile isWordChar (ty ++ ' ' :: '(' :: (body ++ [')'])) =
      ' ' :: '(' :: (body ++ [')']) :=
    dropWhile_app _ htyw (by decide)
  have h5 : List.dropWhile isWsChar (ty ++ ' ' :: '(' :: (body ++ [')'])) =
      ty ++ ' ' :: '(' :: (body ++ [')']) := by
    cases ty with
    | nil => exact absurd rfl hty
    | cons a l =>
      rw [List.cons_append, List.dropWhile_cons_of_neg]
      simp [word_not_ws (htyw a (by simp))]
  have htyE : ty.isEmpty = false := by
    cases ty with
    | nil => exact absurd rfl hty
    | cons a l => rfl
  have hci : ciPrefixOf "in".data ('i' :: 'n' :: ' ' ::
      (ty ++ ' ' :: '(' :: (body ++ [')']))) = true := by
    rw [show "in".data = ['i', 'n'] from rfl, ciPrefixOf_cons, ciPrefixOf_cons,
      ciPrefixOf_nil]
    decide
  have hws : isWsChar ' ' = true := by decide
  have hdirok : dirOk "in".data ('i' :: 'n' :: ' ' ::
      (ty ++ ' ' :: '(' :: (body ++ [')']))) = true := by
    unfold dirOk
    rw [hci]
    have hdrop : List.drop "in".data.length
        ('i' :: 'n' :: ' ' :: (ty ++ ' ' :: '(' :: (body ++ [')']))) =
        ' ' :: (ty ++ ' ' :: '(' :: (body ++ [')'])) := rfl
    simp only [Bool.true_and, hdrop]
    rw [List.takeWhile_cons_of_pos hws, List.dropWhile_cons_of_pos hws, h5, h3]
    simp [htyE]
  have hdir : matchDirection ('i' :: 'n' :: ' ' ::
      (ty ++ ' ' :: '(' :: (body ++ [')']))) =
      some ("in".data, ' ' :: (ty ++ ' ' :: '(' :: (body ++ [')']))) := by
    unfold matchDirection
    rw [if_pos hdirok]
    rfl
  have h7 : List.takeWhile (fun x => x != ')') (body ++ [')']) = body :=
    takeWhile_app [] hbody (by decide)
  have h8 : List.dropWhile (fun x => x != ')') (body ++ [')']) = [')'] :=
    dropWhile_app [] hbody (by decide)
  have hop : isWsChar '(' = false := by decide
  have hrange : matchRange (' ' :: '(' :: (body ++ [')'])) =
      some ('(' :: (body ++ [')'])) := by
    unfold matchRange
    rw [List.dropWhile_cons_of_pos hws]
    rw [List.dropWhile_cons_of_neg (by simp [hop])]
    dsimp only
    rw [if_pos rfl, h7, h8]
    dsimp only
    rw [if_pos rfl]
    simp [List.cons_append]
  have hcolon : isWsChar ':' = false := by decide
  have hi : isWsChar 'i' = false := by decide
  simp only [matchPortAt, h1, h2, hnmE, Bool.false_eq_true, if_false]
  rw [List.dropWhile_cons_of_pos hws, List.dropWhile_cons_of_neg (by simp [hcolon])]
  dsimp only
  rw [if_pos rfl]
  rw [List.dropWhile_cons_of_pos hws]
  rw [List.dropWhile_cons_of_neg (by simp [hi])]
  rw [hdir]
  dsimp only
  rw [List.dropWhile_cons_of_pos hws, h5, h3, h4, hrange]

/-- Characterization of the non-greedy scan `(.*?)\)\s*;`: a successful scan
from accumulator `acc` returns `acc.reverse ++ j` where `j` is the shortest
prefix of the input followed by `)`, optional whitespace, and `;`. -/
theorem lazyScanGen_spec :
    ∀ (s acc i : List Char), lazyScanGen acc s = some i →
      ∃ j w rest, i = acc.reverse ++ j ∧
        s = j ++ ')' :: (w ++ ';' :: rest) ∧ (∀ c ∈ w, isWsChar c = true) ∧
        (∀ j' w' rest', s = j' ++ ')' :: (w' ++ ';' :: rest') →
          (∀ c ∈ w', isWsChar c = true) → j.length ≤ j'.length) := by
  intro s
  induction s with
  | nil => intro acc i h; exact absurd h (by simp [lazyScanGen])
  | cons c s' ih =>
    intro acc i h
    rw [lazyScanGen] at h
    by_cases hstop : c = ')' ∧ (s'.dropWhile isWsChar).head? = some ';'
    · rw [if_pos hstop] at h
      injection h with h
      obtain ⟨hc, hhead⟩ := hstop
      subst hc
      cases hd : s'.dropWhile isWsChar with
      | nil => rw [hd] at hhead; exact absurd hhead (by simp)
      | cons x xs =>
        rw [hd] at hhead
        have hx : x = ';' := by
          injection hhead
        subst hx
        have hdecomp : s' = s'.takeWhile isWsChar ++ ';' :: xs := by
          rw [← hd]
          exact (List.takeWhile_append_dropWhile isWsChar s').symm
        refine ⟨[], s'.takeWhile isWsChar, xs, by simp [← h], ?_, ?_, ?_⟩
        · rw [List.nil_append, ← hdecomp]
        · intro d hd2
          exact List.mem_takeWhile_imp hd2
        · intro j' w' rest' hdec hw'
          simp
    · rw [if_neg hstop] at h
      by_cases hnl : c = '\n'
      · rw [if_pos hnl] at h
        exact absurd h (by simp)
      · rw [if_neg hnl] at h
        obtain ⟨j, w, rest, hi, hs, hw, hmin⟩ := ih (c :: acc) i h
        refine ⟨c :: j, w, rest, ?_, ?_, hw, ?_⟩
        · rw [hi]
          simp
        · rw [hs, List.cons_append]
        · intro j' w' rest' hdec hw'
          cases j' with
          | nil =>
            exfalso
            rw [List.nil_append] at hdec
            injection hdec with hc1 hc2
            apply hstop
            refine ⟨hc1, ?_⟩
            rw [hc2, dropWhile_app _ hw' (by decide)]
            rfl
          | cons x j'' =>
            rw [List.cons_append] at hdec
            injection hdec with hx1 hx2
            have := hmin j'' w' rest' hx2 hw'
            simp only [List.length_cons]
            omega

/-- `dropWhile` never lengthens a list. -/
theorem length_dropWhile_le (p : Char → Bool) (l : List Char) :
    (l.dropWhile p).length ≤ l.length := by
  induction l with
  | nil => simp
  | cons a t ih =>
    rw [List.dropWhile_cons]
    split
    · exact Nat.le_trans ih (Nat.le_succ _)
    · exact Nat.le_refl _

/-- A successful per-generic match consumes at least one character (the
regex starts with `\w+`). -/
theorem matchGenericAt_pos {s : List Char} {g : VhdlGeneric} {k : Nat}
    (h : matchGenericAt s = some (g, k)) : 1 ≤ k := by
  simp only [matchGenericAt] at h
  by_cases h1 : (s.takeWhile isWordChar).isEmpty
  · rw [if_pos h1] at h
    exact absurd h (by simp)
  · rw [if_neg h1] at h
    cases hd : (s.dropWhile isWordChar).dropWhile isWsChar with
    | nil => rw [hd] at h; exact absurd h (by simp)
    | cons c s2 =>
      rw [hd] at h
      dsimp only at h
      by_cases hc : c = ':'
      · rw [if_pos hc] at h
        have hb1 : s2.length + 1 ≤ s.length := by
          have e1 := length_dropWhile_le isWordChar s
          have e2 := length_dropWhile_le isWsChar (s.dropWhile isWordChar)
          rw [hd] at e2
          simp only [List.length_cons] at e2
          omega
        have hb4 : ((s2.dropWhile isWsChar).dropWhile isWordChar).length ≤ s2.length :=
          Nat.le_trans (length_dropWhile_le isWordChar _) (length_dropWhile_le isWsChar _)
        by_cases h2 : ((s2.dropWhile isWsChar).takeWhile isWordChar).isEmpty
        · rw [if_pos h2] at h
          exact absurd h (by simp)
        · rw [if_neg h2] at h
          cases hs5 : ((s2.dropWhile isWsChar).dropWhile isWordChar).dropWhile isWsChar with
          | nil =>
            rw [hs5] at h
            dsimp only at h
            injection h with h
            injection h with hg hk
            omega
          | cons x tl =>
            rw [hs5] at h
            cases tl with
            | nil =>
              dsimp only at h
              injection h with h
              injection h with hg hk
              omega
            | cons y s6 =>
              dsimp only at h
              have hb6 : s6.length + 2 ≤
                  ((s2.dropWhile isWsChar).dropWhile isWordChar).length := by
                have e3 := length_dropWhile_le isWsChar
                  ((s2.dropWhile isWsChar).dropWhile isWordChar)
                rw [hs5] at e3
                simp only [List.length_cons] at e3
                omega
              by_cases hxy : x = ':' ∧ y = '='
              · rw [if_pos hxy] at h
                by_cases hdv : ((s6.dropWhile isWsChar).takeWhile isDefChar).isEmpty
                · rw [if_pos hdv] at h
                  injection h with h
                  injection h with hg hk
                  omega
                · rw [if_neg hdv] at h
                  injection h with h
                  injection h with hg hk
                  have e4 := length_dropWhile_le isWsChar s6
                  have e5 : (s6.dropWhile isWsChar).length -
                      ((s6.dropWhile isWsChar).takeWhile isDefChar).length ≤
                      (s6.dropWhile isWsChar).length := Nat.sub_le _ _
                  omega
              · rw [if_neg hxy] at h
                injection h with h
                injection h with hg hk
                omega
      · rw [if_neg hc] at h
        exact absurd h (by simp)

/-- The iterated per-generic scan does not depend on the fuel, as long as
the fuel dominates the input length. -/
theorem genericsIterFuel_eq :
    ∀ (f1 f2 : Nat) (s : List Char), s.length ≤ f1 → s.length ≤ f2 →
      genericsIterFuel f1 s = genericsIterFuel f2 s := by
  intro f1
  induction f1 with
  | zero =>
    intro f2 s h1 h2
    have hs : s = [] := List.eq_nil_of_length_eq_zero (Nat.le_zero.mp h1)
    subst hs
    cases f2 with
    | zero => rfl
    | succ b => rfl
  | succ a ih =>
    intro f2 s h1 h2
    cases s with
    | nil =>
      cases f2 with
      | zero => rfl
      | succ b => rfl
    | cons c t =>
      cases f2 with
      | zero => exact absurd h2 (by simp)
      | succ b =>
        simp only [genericsIterFuel]
        cases hm : matchGenericAt (c :: t) with
        | some pr =>
          obtain ⟨g, k⟩ := pr
          have hk := matchGenericAt_pos hm
          have hlen : ((c :: t).drop k).length ≤ a ∧ ((c :: t).drop k).length ≤ b := by
            simp only [List.length_drop, List.length_cons]
            simp only [List.length_cons] at h1 h2
            omega
          exact congrArg (g :: ·) (ih b _ hlen.1 hlen.2)
        | none =>
          have hlen : t.length ≤ a ∧ t.length ≤ b := by
            simp only [List.length_cons] at h1 h2
            omega
          exact ih b t hlen.1 hlen.2

/-- Step lemma: a failing head position is skipped. -/
theorem genericsRun_nomatch {c : Char} {t : List Char}
    (hm : matchGenericAt (c :: t) = none) :
    genericsRun (c :: t) = genericsRun t := by
  unfold genericsRun
  simp only [List.length_cons, genericsIterFuel, hm]

/-- Step lemma: a successful match at the head emits its generic and
continues after the matched text. -/
theorem genericsRun_match {s D : List Char} {g : VhdlGeneric} {k : Nat}
    (hm : matchGenericAt s = some (g, k)) (hd : s.drop k = D)
    (hlen : D.length < s.length) :
    genericsRun s = g :: genericsRun D := by
  unfold genericsRun
  obtain ⟨n, hn⟩ : ∃ n, s.length = n + 1 := by
    cases hh : s.length with
    | zero => omega
    | succ m => exact ⟨m, rfl⟩
  rw [hn]
  simp only [genericsIterFuel, hm, hd]
  exact congrArg (g :: ·) (genericsIterFuel_eq n D.length D (by omega) (Nat.le_refl _))

/-- A position whose head is not a word character never matches. -/
theorem matchGenericAt_nonword {c : Char} {t : List Char}
    (hc : isWordChar c = false) : matchGenericAt (c :: t) = none := by
  have h1 : List.takeWhile isWordChar (c :: t) = [] :=
    List.takeWhile_cons_of_neg (by simp [hc])
  simp only [matchGenericAt, h1]
  rfl

/-- Word characters are not the closing parenthesis or a newline. -/
theorem word_ne_special {c : Char} (h : isWordChar c = true) :
    c ≠ ')' ∧ c ≠ '\n' := by
  constructor <;> rintro rfl <;> exact absurd h (by decide)

/-- `dropWhile` is the identity on strings with no matching character. -/
theorem dropWhile_noMatch {p : Char → Bool} :
    ∀ {l : List Char}, (∀ c ∈ l, p c = false) → l.dropWhile p = l := by
  intro l hl
  cases l with
  | nil => rfl
  | cons y t => exact List.dropWhile_cons_of_neg (by simp [hl y (by simp)])

/-- Trimming a whitespace-free string with one trailing space yields the
string itself (the code captures the default value up to the separator and
then trims it). -/
theorem trimWs_append_space (d : List Char) (hd : ∀ c ∈ d, isWsChar c = false) :
    trimWs (d ++ [' ']) = d := by
  unfold trimWs
  cases d with
  | nil => rfl
  | cons x d' =>
    have hx : isWsChar x = false := hd x (by simp)
    rw [List.cons_append, List.dropWhile_cons_of_neg (by simp [hx])]
    rw [show (x :: (d' ++ [' '])).reverse = ' ' :: (x :: d').reverse from by simp]
    rw [List.dropWhile_cons_of_pos (by decide)]
    rw [dropWhile_noMatch (by
      intro c hc
      exact hd c (by simpa using List.mem_reverse.mp hc))]
    rw [List.reverse_reverse]

/-- The non-greedy scan walks over characters that can neither stop it nor
fail it, accumulating them. -/
theorem lazyScanGen_append :
    ∀ (xs acc rest : List Char), (∀ c ∈ xs, c ≠ ')' ∧ c ≠ '\n') →
      lazyScanGen acc (xs ++ rest) = lazyScanGen (xs.reverse ++ acc) rest := by
  intro xs
  induction xs with
  | nil => intro acc rest h; simp
  | cons x xs' ih =>
    intro acc rest h
    have hx := h x (by simp)
    rw [List.cons_append, lazyScanGen]
    rw [if_neg (fun hcontra => hx.1 hcontra.1), if_neg hx.2]
    rw [ih (x :: acc) rest (fun c hc => h c (by simp [hc]))]
    congr 1
    simp

/-- The non-greedy scan stops at a `)` followed by whitespace and `;`. -/
theorem lazyScanGen_stop (acc w rest : List Char)
    (hw : ∀ c ∈ w, isWsChar c = true) :
    lazyScanGen acc (')' :: (w ++ ';' :: rest)) = some acc.reverse := by
  rw [lazyScanGen, if_pos]
  refine ⟨rfl, ?_⟩
  rw [dropWhile_app _ hw (by decide)]
  rfl

/-- A successful anchored generic-section match at the very start of the
text is the leftmost match. -/
theorem genericInterior_concrete_head (X i : List Char)
    (h : genericInteriorAt ("generic".data ++ X) = some i) :
    genericInterior ("generic".data ++ X) = some i := by
  have hcons : ("generic".data ++ X : List Char) = 'g' :: ("eneric".data ++ X) := rfl
  rw [hcons] at h
  rw [hcons, genericInterior, h]

/-- The per-generic regex on a clause `a : t1 := d1` followed by the
separator `;` and further text: the default value is captured up to the
separator and trimmed, and the match ends right before the separator. -/
theorem matchGenericAt_defclause (a t1 d1 Y : List Char)
    (ha : a ≠ []) (haw : ∀ c ∈ a, isWordChar c = true)
    (ht : t1 ≠ []) (htw : ∀ c ∈ t1, isWordChar c = true)
    (hd1 : d1 ≠ []) (hdw : ∀ c ∈ d1, isDefChar c = true ∧ isWsChar c = false) :
    ∃ k, matchGenericAt (a ++ ' ' :: ':' :: ' ' ::
        (t1 ++ ' ' :: ':' :: '=' :: ' ' :: (d1 ++ ' ' :: ';' :: ' ' :: Y))) =
        some (⟨a, t1, some d1⟩, k) ∧
      (a ++ ' ' :: ':' :: ' ' ::
        (t1 ++ ' ' :: ':' :: '=' :: ' ' :: (d1 ++ ' ' :: ';' :: ' ' :: Y))).drop k =
        ';' :: ' ' :: Y := by
  have hws : isWsChar ' ' = true := by decide
  have haE : a.isEmpty = false := by
    cases a with
    | nil => exact absurd rfl ha
    | cons x l => rfl
  have htE : t1.isEmpty = false := by
    cases t1 with
    | nil => exact absurd rfl ht
    | cons x l => rfl
  have h1 : List.takeWhile isWordChar (a ++ ' ' :: ':' :: ' ' ::
      (t1 ++ ' ' :: ':' :: '=' :: ' ' :: (d1 ++ ' ' :: ';' :: ' ' :: Y))) = a :=
    takeWhile_app _ haw (by decide)
  have h2 : List.dropWhile isWordChar (a ++ ' ' :: ':' :: ' ' ::
      (t1 ++ ' ' :: ':' :: '=' :: ' ' :: (d1 ++ ' ' :: ';' :: ' ' :: Y))) =
      ' ' :: ':' :: ' ' :: (t1 ++ ' ' :: ':' :: '=' :: ' ' ::
        (d1 ++ ' ' :: ';' :: ' ' :: Y)) :=
    dropWhile_app _ haw (by decide)
  have h3 : List.dropWhile isWsChar (t1 ++ ' ' :: ':' :: '=' :: ' ' ::
      (d1 ++ ' ' :: ';' :: ' ' :: Y)) =
      t1 ++ ' ' :: ':' :: '=' :: ' ' :: (d1 ++ ' ' :: ';' :: ' ' :: Y) := by
    cases t1 with
    | nil => exact absurd rfl ht
    | cons x l =>
      rw [List.cons_append,
        List.dropWhile_cons_of_neg (by simp [word_not_ws (htw x (by simp))])]
  have h4 : List.takeWhile isWordChar (t1 ++ ' ' :: ':' :: '=' :: ' ' ::
      (d1 ++ ' ' :: ';' :: ' ' :: Y)) = t1 :=
    takeWhile_app _ htw (by decide)
  have h5 : List.dropWhile isWordChar (t1 ++ ' ' :: ':' :: '=' :: ' ' ::
      (d1 ++ ' ' :: ';' :: ' ' :: Y)) =
      ' ' :: ':' :: '=' :: ' ' :: (d1 ++ ' ' :: ';' :: ' ' :: Y) :=
    dropWhile_app _ htw (by decide)
  have h6 : List.dropWhile isWsChar (d1 ++ ' ' :: ';' :: ' ' :: Y) =
      d1 ++ ' ' :: ';' :: ' ' :: Y := by
    cases d1 with
    | nil => exact absurd rfl hd1
    | cons x l =>
      rw [List.cons_append,
        List.dropWhile_cons_of_neg (by simp [(hdw x (by simp)).2])]
  have hre : d1 ++ ' ' :: ';' :: ' ' :: Y = (d1 ++ [' ']) ++ ';' :: (' ' :: Y) := by
    simp
  have h7 : List.takeWhile isDefChar (d1 ++ ' ' :: ';' :: ' ' :: Y) = d1 ++ [' '] := by
    rw [hre]
    refine takeWhile_app _ ?_ (by decide)
    intro c hc
    rcases List.mem_append.mp hc with hc1 | hc1
    · exact (hdw c hc1).1
    · simp at hc1
      subst hc1
      decide
  have hdvE : (d1 ++ [' ']).isEmpty = false := by
    cases d1 with
    | nil => rfl
    | cons x l => rfl
  have htrim : trimWs (d1 ++ [' ']) = d1 :=
    trimWs_append_space d1 (fun c hc => (hdw c hc).2)
  refine ⟨(a ++ ' ' :: ':' :: ' ' ::
      (t1 ++ ' ' :: ':' :: '=' :: ' ' :: (d1 ++ [' ']))).length, ?_, ?_⟩
  · simp only [matchGenericAt, h1, h2, haE, Bool.false_eq_true, if_false]
    rw [List.dropWhile_cons_of_pos hws]
    rw [List.dropWhile_cons_of_neg (by decide)]
    dsimp only
    rw [if_pos rfl]
    rw [List.dropWhile_cons_of_pos hws, h3, h4]
    simp only [htE, Bool.false_eq_true, if_false]
    rw [h5]
    rw [List.dropWhile_cons_of_pos hws]
    rw [List.dropWhile_cons_of_neg (by decide)]
    dsimp only
    rw [if_pos ⟨rfl, rfl⟩]
    rw [List.dropWhile_cons_of_pos hws, h6, h7]
    simp only [hdvE, Bool.false_eq_true, if_false, htrim]
    refine congrArg some (congrArg _ ?_)
    simp only [List.length_append, List.length_cons, List.length_nil]
    omega
  · rw [show a ++ ' ' :: ':' :: ' ' ::
        (t1 ++ ' ' :: ':' :: '=' :: ' ' :: (d1 ++ ' ' :: ';' :: ' ' :: Y)) =
        (a ++ ' ' :: ':' :: ' ' ::
          (t1 ++ ' ' :: ':' :: '=' :: ' ' :: (d1 ++ [' ']))) ++ ';' :: ' ' :: Y
      from by simp]
    exact List.drop_left _ _

/-- The per-generic regex on a final clause `b : t2` with no default and a
trailing space: the optional default group matches empty. -/
theorem matchGenericAt_nodefclause (b t2 : List Char)
    (hb : b ≠ []) (hbw : ∀ c ∈ b, isWordChar c = true)
    (ht : t2 ≠ []) (htw : ∀ c ∈ t2, isWordChar c = true) :
    ∃ k, matchGenericAt (b ++ ' ' :: ':' :: ' ' :: (t2 ++ [' '])) =
        some (⟨b, t2, none⟩, k) ∧
      (b ++ ' ' :: ':' :: ' ' :: (t2 ++ [' '])).drop k = [' '] := by
  have hws : isWsChar ' ' = true := by decide
  have hbE : b.isEmpty = false := by
    cases b with
    | nil => exact absurd rfl hb
    | cons x l => rfl
  have htE : t2.isEmpty = false := by
    cases t2 with
    | nil => exact absurd rfl ht
    | cons x l => rfl
  have h1 : List.takeWhile isWordChar (b ++ ' ' :: ':' :: ' ' :: (t2 ++ [' '])) = b :=
    takeWhile_app _ hbw (by decide)
  have h2 : List.dropWhile isWordChar (b ++ ' ' :: ':' :: ' ' :: (t2 ++ [' '])) =
      ' ' :: ':' :: ' ' :: (t2 ++ [' ']) :=
    dropWhile_app _ hbw (by decide)
  have h3 : List.dropWhile isWsChar (t2 ++ [' ']) = t2 ++ [' '] := by
    cases t2 with
    | nil => exact absurd rfl ht
    | cons x l =>
      rw [List.cons_append,
        List.dropWhile_cons_of_neg (by simp [word_not_ws (htw x (by simp))])]
  have h4 : List.takeWhile isWordChar (t2 ++ [' ']) = t2 :=
    takeWhile_app [] htw (by decide)
  have h5 : List.dropWhile isWordChar (t2 ++ [' ']) = [' '] :=
    dropWhile_app [] htw (by decide)
  refine ⟨(b ++ ' ' :: ':' :: ' ' :: t2).length, ?_, ?_⟩
  · simp only [matchGenericAt, h1, h2, hbE, Bool.false_eq_true, if_false]
    rw [List.dropWhile_cons_of_pos hws]
    rw [List.dropWhile_cons_of_neg (by decide)]
    dsimp only
    rw [if_pos rfl]
    rw [List.dropWhile_cons_of_pos hws, h3, h4]
    simp only [htE, Bool.false_eq_true, if_false]
    rw [h5]
    rw [List.dropWhile_cons_of_pos hws]
    simp only [List.dropWhile_nil]
    refine congrArg some (congrArg _ ?_)
    simp only [List.length_append, List.length_cons, List.length_nil]
    omega
  · rw [show b ++ ' ' :: ':' :: ' ' :: (t2 ++ [' ']) =
        (b ++ ' ' :: ':' :: ' ' :: t2) ++ [' '] from by simp]
    exact List.drop_left _ _

/-- Combinator: a character predicate holds on an append. -/
theorem forall_mem_append {P : Char → Prop} {xs ys : List Char}
    (h1 : ∀ c ∈ xs, P c) (h2 : ∀ c ∈ ys, P c) : ∀ c ∈ xs ++ ys, P c := by
  intro c hc
  rcases List.mem_append.mp hc with h | h
  · exact h1 c h
  · exact h2 c h

/-- Combinator: a character predicate holds on a cons. -/
theorem forall_mem_cons_intro {P : Char → Prop} {x : Char} {xs : List Char}
    (hx : P x) (hxs : ∀ c ∈ xs, P c) : ∀ c ∈ x :: xs, P c := by
  intro c hc
  rcases List.mem_cons.mp hc with rfl | h
  · exact hx
  · exact hxs c h

/-- Default-value characters are not the closing parenthesis or a newline. -/
theorem defChar_ne {c : Char} (h1 : isDefChar c = true) (h2 : isWsChar c = false) :
    c ≠ ')' ∧ c ≠ '\n' := by
  constructor <;> rintro rfl
  · exact absurd h1 (by decide)
  · exact absurd h2 (by decide)


/-- Whitespace characters are not parentheses or the separator. -/
theorem ws_class {c : Char} (h : isWsChar c = true) :
    c ≠ '(' ∧ c ≠ ')' ∧ c ≠ ';' := by
  refine ⟨?_, ?_, ?_⟩ <;> rintro rfl <;> exact absurd h (by decide)

/-- `netDepth` unfolded at an opening parenthesis. -/
theorem netDepth_cons_open (t : List Char) : netDepth ('(' :: t) = 1 + netDepth t := by
  simp [netDepth]

/-- `netDepth` unfolded at a closing parenthesis. -/
theorem netDepth_cons_close (t : List Char) : netDepth (')' :: t) = -1 + netDepth t := by
  rw [netDepth, if_neg (by decide), if_pos rfl]

/-- `netDepth` unfolded at a non-parenthesis character. -/
theorem netDepth_cons_other {c : Char} (hc1 : c ≠ '(') (hc2 : c ≠ ')')
    (t : List Char) : netDepth (c :: t) = netDepth t := by
  rw [netDepth, if_neg hc1, if_neg hc2]
  omega

/-- The separator scan unfolded at an opening parenthesis. -/
theorem noSplit_cons_open (d : Int) (t : List Char) :
    noSplitSemisB d ('(' :: t) = noSplitSemisB (d + 1) t := by
  rw [noSplitSemisB, if_pos rfl]

/-- The separator scan unfolded at a closing parenthesis. -/
theorem noSplit_cons_close (d : Int) (t : List Char) :
    noSplitSemisB d (')' :: t) = noSplitSemisB (d - 1) t := by
  rw [noSplitSemisB, if_neg (by decide), if_pos rfl]

/-- The separator scan unfolded at the separator. -/
theorem noSplit_cons_semi (d : Int) (t : List Char) :
    noSplitSemisB d (';' :: t) = (d != 0 && noSplitSemisB d t) := by
  rw [noSplitSemisB, if_neg (by decide), if_neg (by decide), if_pos rfl]

/-- The separator scan unfolded at an ordinary character. -/
theorem noSplit_cons_other {c : Char} (hc1 : c ≠ '(') (hc2 : c ≠ ')')
    (hc3 : c ≠ ';') (d : Int) (t : List Char) :
    noSplitSemisB d (c :: t) = noSplitSemisB d t := by
  rw [noSplitSemisB, if_neg hc1, if_neg hc2, if_neg hc3]

/-- `netDepth` is additive on appends. -/
theorem netDepth_append (xs ys : List Char) :
    netDepth (xs ++ ys) = netDepth xs + netDepth ys := by
  induction xs with
  | nil => simp [netDepth]
  | cons c t ih =>
    by_cases h1 : c = '('
    · subst h1
      rw [List.cons_append, netDepth_cons_open, netDepth_cons_open, ih]
      omega
    · by_cases h2 : c = ')'
      · subst h2
        rw [List.cons_append, netDepth_cons_close, netDepth_cons_close, ih]
        omega
      · rw [List.cons_append, netDepth_cons_other h1 h2, netDepth_cons_other h1 h2, ih]

/-- `netDepth` of an all-whitespace string is zero. -/
theorem netDepth_all_ws {l : List Char} (h : ∀ c ∈ l, isWsChar c = true) :
    netDepth l = 0 := by
  induction l with
  | nil => rfl
  | cons c t ih =>
    have hc := ws_class (h c (by simp))
    rw [netDepth_cons_other hc.1 hc.2.1]
    exact ih (fun d hd => h d (by simp [hd]))

/-- Scanning an append: no depth-zero separator in either part. -/
theorem noSplit_append (xs : List Char) :
    ∀ (dep : Int) (ys : List Char),
      noSplitSemisB dep (xs ++ ys) =
        (noSplitSemisB dep xs && noSplitSemisB (dep + netDepth xs) ys) := by
  induction xs with
  | nil => intro dep ys; simp [noSplitSemisB, netDepth]
  | cons c t ih =>
    intro dep ys
    by_cases h1 : c = '('
    · subst h1
      rw [List.cons_append, noSplit_cons_open, noSplit_cons_open, ih,
        netDepth_cons_open,
        show dep + 1 + netDepth t = dep + (1 + netDepth t) from by omega]
    · by_cases h2 : c = ')'
      · subst h2
        rw [List.cons_append, noSplit_cons_close, noSplit_cons_close, ih,
          netDepth_cons_close,
          show dep - 1 + netDepth t = dep + (-1 + netDepth t) from by omega]
      · by_cases h3 : c = ';'
        · subst h3
          rw [List.cons_append, noSplit_cons_semi, noSplit_cons_semi, ih,
            netDepth_cons_other (by decide) (by decide), Bool.and_assoc]
        · rw [List.cons_append, noSplit_cons_other h1 h2 h3,
            noSplit_cons_other h1 h2 h3, ih, netDepth_cons_other h1 h2]

/-- A prefix of a separator-clean scan is separator-clean. -/
theorem noSplit_prefix {dep : Int} {xs ys : List Char}
    (h : noSplitSemisB dep (xs ++ ys) = true) : noSplitSemisB dep xs = true := by
  rw [noSplit_append] at h
  simp only [Bool.and_eq_true] at h
  exact h.1

/-- Whitespace is transparent for `netDepth`. -/
theorem netDepth_dropWhile_ws (l : List Char) :
    netDepth (l.dropWhile isWsChar) = netDepth l := by
  induction l with
  | nil => rfl
  | cons c t ih =>
    by_cases hc : isWsChar c = true
    · have hcl := ws_class hc
      rw [List.dropWhile_cons_of_pos hc, ih, netDepth_cons_other hcl.1 hcl.2.1]
    · rw [List.dropWhile_cons_of_neg (by simp [hc])]

/-- Whitespace is transparent for the separator scan. -/
theorem noSplit_dropWhile_ws (l : List Char) (dep : Int) :
    noSplitSemisB dep (l.dropWhile isWsChar) = noSplitSemisB dep l := by
  induction l with
  | nil => rfl
  | cons c t ih =>
    by_cases hc : isWsChar c = true
    · have hcl := ws_class hc
      rw [List.dropWhile_cons_of_pos hc, ih,
        noSplit_cons_other hcl.1 hcl.2.1 hcl.2.2]
    · rw [List.dropWhile_cons_of_neg (by simp [hc])]

/-- The head surviving a `dropWhile` fails the predicate. -/
theorem dropWhile_head_false {p : Char → Bool} :
    ∀ {l : List Char} {c : Char} {t : List Char},
      l.dropWhile p = c :: t → p c = false := by
  intro l
  induction l with
  | nil => intro c t h; exact absurd h (by simp)
  | cons a l' ih =>
    intro c t h
    rw [List.dropWhile_cons] at h
    split at h
    · exact ih h
    · rename_i hpa
      injection h with h1 h2
      subst h1
      simpa using hpa

/-- `dropWhile` is idempotent. -/
theorem dropWhile_dropWhile (p : Char → Bool) (l : List Char) :
    (l.dropWhile p).dropWhile p = l.dropWhile p := by
  cases h : l.dropWhile p with
  | nil => rfl
  | cons c t => exact List.dropWhile_cons_of_neg (by simp [dropWhile_head_false h])

/-- The trimmed string is a prefix of the front-trimmed string, the
remainder being whitespace. -/
theorem trim_decomp (s : List Char) :
    ∃ ys, s.dropWhile isWsChar = trimWs s ++ ys ∧ ∀ c ∈ ys, isWsChar c = true := by
  refine ⟨((s.dropWhile isWsChar).reverse.takeWhile isWsChar).reverse, ?_, ?_⟩
  · unfold trimWs
    conv_lhs => rw [← List.reverse_reverse (s.dropWhile isWsChar),
      ← List.takeWhile_append_dropWhile isWsChar (s.dropWhile isWsChar).reverse]
    rw [List.reverse_append]
  · intro c hc
    exact List.mem_takeWhile_imp (List.mem_reverse.mp hc)

/-- Trimming preserves `netDepth`. -/
theorem netDepth_trim (s : List Char) : netDepth (trimWs s) = netDepth s := by
  obtain ⟨ys, hdec, hws⟩ := trim_decomp s
  have h1 : netDepth (s.dropWhile isWsChar) = netDepth s := netDepth_dropWhile_ws s
  rw [hdec, netDepth_append, netDepth_all_ws hws] at h1
  omega

/-- Trimming preserves separator-cleanliness. -/
theorem noSplit_trim {s : List Char} (h : noSplitSemisB 0 s = true) :
    noSplitSemisB 0 (trimWs s) = true := by
  obtain ⟨ys, hdec, _⟩ := trim_decomp s
  have h1 : noSplitSemisB 0 (s.dropWhile isWsChar) = true := by
    rw [noSplit_dropWhile_ws]
    exact h
  rw [hdec] at h1
  exact noSplit_prefix h1

/-- Trimming is idempotent. -/
theorem trimWs_idem (s : List Char) : trimWs (trimWs s) = trimWs s := by
  have htrev : (trimWs s).reverse = (s.dropWhile isWsChar).reverse.dropWhile isWsChar := by
    unfold trimWs
    rw [List.reverse_reverse]
  have hFt : (trimWs s).dropWhile isWsChar = trimWs s := by
    cases ht : trimWs s with
    | nil => rfl
    | cons c t' =>
      obtain ⟨ys, hdec, _⟩ := trim_decomp s
      rw [ht] at hdec
      have hu : (s.dropWhile isWsChar).dropWhile isWsChar = s.dropWhile isWsChar :=
        dropWhile_dropWhile isWsChar s
      rw [hdec, List.cons_append] at hu
      have hc : isWsChar c = false := by
        by_contra hcc
        have hcc' : isWsChar c = true := by
          cases hh : isWsChar c
          · exact absurd hh hcc
          · rfl
        rw [List.dropWhile_cons_of_pos hcc'] at hu
        have := length_dropWhile_le isWsChar (t' ++ ys)
        rw [hu] at this
        simp at this
      exact List.dropWhile_cons_of_neg (by simp [hc])
  show (((trimWs s).dropWhile isWsChar).reverse.dropWhile isWsChar).reverse = trimWs s
  rw [hFt, htrev, dropWhile_dropWhile, ← htrev, List.reverse_reverse]

/-- The splitter at the end of input. -/
theorem splitGo_nil (current : List Char) (depth : Int) :
    splitGo current depth [] =
      if (trimWs current).isEmpty then [] else [trimWs current] := rfl

/-- The splitter at an opening parenthesis. -/
theorem splitGo_cons_open (current : List Char) (depth : Int) (t : List Char) :
    splitGo current depth ('(' :: t) = splitGo (current ++ ['(']) (depth + 1) t := by
  rw [splitGo, if_pos rfl]

/-- The splitter at a closing parenthesis. -/
theorem splitGo_cons_close (current : List Char) (depth : Int) (t : List Char) :
    splitGo current depth (')' :: t) = splitGo (current ++ [')']) (depth - 1) t := by
  rw [splitGo, if_neg (by decide), if_pos rfl]

/-- The splitter at a depth-zero separator with a pending clause. -/
theorem splitGo_cons_semi_emit {current : List Char} (t : List Char)
    (h : (trimWs current).isEmpty = false) :
    splitGo current 0 (';' :: t) = trimWs current :: splitGo [] 0 t := by
  rw [splitGo, if_neg (by decide), if_neg (by decide), if_pos ⟨rfl, rfl⟩,
    if_neg (by simp [h])]

/-- The splitter at a depth-zero separator with only whitespace pending. -/
theorem splitGo_cons_semi_skip {current : List Char} (t : List Char)
    (h : (trimWs current).isEmpty = true) :
    splitGo current 0 (';' :: t) = splitGo current 0 t := by
  rw [splitGo, if_neg (by decide), if_neg (by decide), if_pos ⟨rfl, rfl⟩, if_pos h]

/-- The splitter accumulates any other character. -/
theorem splitGo_cons_push {c : Char} {depth : Int} (current t : List Char)
    (hc1 : c ≠ '(') (hc2 : c ≠ ')') (h3 : ¬(c = ';' ∧ depth = 0)) :
    splitGo current depth (c :: t) = splitGo (current ++ [c]) depth t := by
  rw [splitGo, if_neg hc1, if_neg hc2, if_neg h3]

/-- The splitter walks through a separator-clean chunk, accumulating it and
updating the depth by its net parenthesis count. -/
theorem splitGo_through :
    ∀ (d : List Char) (dep : Int) (current rest : List Char),
      noSplitSemisB dep d = true →
      splitGo current dep (d ++ rest) =
        splitGo (current ++ d) (dep + netDepth d) rest := by
  intro d
  induction d with
  | nil =>
    intro dep current rest h
    simp [netDepth]
  | cons c t ih =>
    intro dep current rest h
    by_cases h1 : c = '('
    · subst h1
      rw [noSplit_cons_open] at h
      rw [List.cons_append, splitGo_cons_open, ih _ _ _ h, netDepth_cons_open,
        show (current ++ ['(']) ++ t = current ++ '(' :: t from by simp,
        show dep + 1 + netDepth t = dep + (1 + netDepth t) from by omega]
    · by_cases h2 : c = ')'
      · subst h2
        rw [noSplit_cons_close] at h
        rw [List.cons_append, splitGo_cons_close, ih _ _ _ h, netDepth_cons_close,
          show (current ++ [')']) ++ t = current ++ ')' :: t from by simp,
          show dep - 1 + netDepth t = dep + (-1 + netDepth t) from by omega]
      · by_cases h3 : c = ';'
        · subst h3
          rw [noSplit_cons_semi] at h
          simp only [Bool.and_eq_true] at h
          have hd : dep ≠ 0 := by simpa using h.1
          rw [List.cons_append, splitGo_cons_push _ _ (by decide) (by decide)
            (fun hq => hd hq.2), ih _ _ _ h.2,
            netDepth_cons_other (by decide) (by decide),
            show (current ++ [';']) ++ t = current ++ ';' :: t from by simp]
        · rw [noSplit_cons_other h1 h2 h3] at h
          rw [List.cons_append, splitGo_cons_push _ _ h1 h2 (fun hq => h3 hq.1),
            ih _ _ _ h, netDepth_cons_other h1 h2,
            show (current ++ [c]) ++ t = current ++ c :: t from by simp]

/-- Every clause emitted by the splitter is trimmed, non-empty, and free of
depth-zero separators. -/
theorem splitGo_good :
    ∀ (s current : List Char) (depth : Int),
      netDepth current = depth → noSplitSemisB 0 current = true →
      ∀ d ∈ splitGo current depth s,
        trimWs d = d ∧ d ≠ [] ∧ noSplitSemisB 0 d = true := by
  intro s
  induction s with
  | nil =>
    intro current depth hnet hns d hd
    rw [splitGo_nil] at hd
    split at hd
    · exact absurd hd (by simp)
    · rename_i hne
      have hdq : d = trimWs current := by simpa using hd
      subst hdq
      refine ⟨trimWs_idem current, ?_, noSplit_trim hns⟩
      intro hq
      rw [hq] at hne
      exact hne rfl
  | cons c t ih =>
    intro current depth hnet hns d hd
    by_cases h1 : c = '('
    · subst h1
      rw [splitGo_cons_open] at hd
      refine ih _ _ ?_ ?_ d hd
      · rw [netDepth_append, netDepth_cons_open]
        simp only [netDepth]
        omega
      · rw [noSplit_append]
        simp only [hns, Bool.true_and]
        rw [noSplit_cons_open]
        rfl
    · by_cases h2 : c = ')'
      · subst h2
        rw [splitGo_cons_close] at hd
        refine ih _ _ ?_ ?_ d hd
        · rw [netDepth_append, netDepth_cons_close]
          simp only [netDepth]
          omega
        · rw [noSplit_append]
          simp only [hns, Bool.true_and]
          rw [noSplit_cons_close]
          rfl
      · by_cases h3 : c = ';'
        · subst h3
          by_cases hz : depth = 0
          · subst hz
            by_cases hws : (trimWs current).isEmpty
            · rw [splitGo_cons_semi_skip t hws] at hd
              exact ih _ _ hnet hns d hd
            · rw [splitGo_cons_semi_emit t (by simpa using hws)] at hd
              rcases List.mem_cons.mp hd with rfl | hd2
              · refine ⟨trimWs_idem current, ?_, noSplit_trim hns⟩
                intro hq
                rw [hq] at hws
                exact hws rfl
              · exact ih [] 0 rfl rfl d hd2
          · rw [splitGo_cons_push _ _ (by decide) (by decide)
              (fun hq => hz hq.2)] at hd
            refine ih _ _ ?_ ?_ d hd
            · rw [netDepth_append,
                netDepth_cons_other (by decide) (by decide), netDepth]
              omega
            · rw [noSplit_append]
              simp only [hns, Bool.true_and]
              rw [noSplit_cons_semi]
              have hx : netDepth current ≠ 0 := by omega
              simp [hx, noSplitSemisB]
        · rw [splitGo_cons_push _ _ h1 h2 (fun hq => h3 hq.1)] at hd
          refine ih _ _ ?_ ?_ d hd
          · rw [netDepth_append, netDepth_cons_other h1 h2, netDepth]
            omega
          · rw [noSplit_append]
            simp only [hns, Bool.true_and]
            rw [noSplit_cons_other h1 h2 h3]
            rfl

/-- Every clause except possibly the last one was emitted at a depth-zero
separator, so its net parenthesis count is zero. -/
theorem splitGo_dropLast_net :
    ∀ (s current : List Char) (depth : Int), netDepth current = depth →
      ∀ d ∈ (splitGo current depth s).dropLast, netDepth d = 0 := by
  intro s
  induction s with
  | nil =>
    intro current depth hnet d hd
    rw [splitGo_nil] at hd
    split at hd
    · exact absurd hd (by simp)
    · exact absurd hd (by simp)
  | cons c t ih =>
    intro current depth hnet d hd
    by_cases h1 : c = '('
    · subst h1
      rw [splitGo_cons_open] at hd
      refine ih _ _ ?_ d hd
      rw [netDepth_append, netDepth_cons_open]
      simp only [netDepth]
      omega
    · by_cases h2 : c = ')'
      · subst h2
        rw [splitGo_cons_close] at hd
        refine ih _ _ ?_ d hd
        rw [netDepth_append, netDepth_cons_close]
        simp only [netDepth]
        omega
      · by_cases h3 : c = ';'
        · subst h3
          by_cases hz : depth = 0
          · subst hz
            by_cases hws : (trimWs current).isEmpty
            · rw [splitGo_cons_semi_skip t hws] at hd
              exact ih _ _ hnet d hd
            · rw [splitGo_cons_semi_emit t (by simpa using hws)] at hd
              cases hL : splitGo [] 0 t with
              | nil => rw [hL, List.dropLast_single] at hd; exact absurd hd (by simp)
              | cons y L' =>
                rw [hL, List.dropLast_cons₂] at hd
                rcases List.mem_cons.mp hd with rfl | hd2
                · rw [netDepth_trim, hnet]
                · rw [← hL] at hd2
                  exact ih [] 0 rfl d hd2
          · rw [splitGo_cons_push _ _ (by decide) (by decide)
              (fun hq => hz hq.2)] at hd
            refine ih _ _ ?_ d hd
            rw [netDepth_append, netDepth_cons_other (by decide) (by decide)]
            simp only [netDepth]
            omega
        · rw [splitGo_cons_push _ _ h1 h2 (fun hq => h3 hq.1)] at hd
          refine ih _ _ ?_ d hd
          rw [netDepth_append, netDepth_cons_other h1 h2]
          simp only [netDepth]
          omega

/-- `intercalate` on a singleton. -/
theorem intercalate_single (s d : List Char) : List.intercalate s [d] = d := by
  simp [List.intercalate]

/-- `intercalate` peels one leading element off a two-or-more list. -/
theorem intercalate_cons2 (s a b : List Char) (t : List (List Char)) :
    List.intercalate s (a :: b :: t) = a ++ (s ++ List.intercalate s (b :: t)) := by
  rw [List.intercalate, List.intercalate,
    show List.intersperse s (a :: b :: t) = a :: s :: List.intersperse s (b :: t)
      from rfl]
  simp

/-- Splitting an intercalation of good clauses recovers exactly the clauses:
each is trimmed, non-empty and separator-clean, and all but the last are
parenthesis-balanced. -/
theorem splitPDI_intercalate :
    ∀ l : List (List Char),
      (∀ d ∈ l, trimWs d = d ∧ d ≠ [] ∧ noSplitSemisB 0 d = true) →
      (∀ d ∈ l.dropLast, netDepth d = 0) →
      splitPortDeclarationsImproved (List.intercalate [';'] l) = l := by
  intro l
  induction l with
  | nil => intro _ _; rfl
  | cons d l' ih =>
    intro hgood hnet
    obtain ⟨ht, hne, hns⟩ := hgood d (by simp)
    have hEmp : (trimWs d).isEmpty = false := by
      rw [ht]
      cases d with
      | nil => exact absurd rfl hne
      | cons x xs => rfl
    cases l' with
    | nil =>
      rw [intercalate_single]
      unfold splitPortDeclarationsImproved
      have h2 := splitGo_through d 0 [] [] hns
      rw [List.append_nil, List.nil_append] at h2
      rw [h2, splitGo_nil, if_neg (by simp [hEmp]), ht]
    | cons d2 l'' =>
      rw [intercalate_cons2]
      unfold splitPortDeclarationsImproved
      have hnetd : netDepth d = 0 := by
        refine hnet d ?_
        rw [List.dropLast_cons₂]
        simp
      have h2 := splitGo_through d 0 [] ([';'] ++ List.intercalate [';'] (d2 :: l'')) hns
      rw [List.nil_append, hnetd, show (0 : Int) + 0 = 0 from rfl] at h2
      rw [h2,
        show ([';'] ++ List.intercalate [';'] (d2 :: l'') : List Char) =
          ';' :: List.intercalate [';'] (d2 :: l'') from rfl,
        splitGo_cons_semi_emit _ hEmp, ht]
      have hrec : splitGo [] 0 (List.intercalate [';'] (d2 :: l'')) = d2 :: l'' := by
        have := ih (fun e he => hgood e (by simp [he]))
          (fun e he => by
            refine hnet e ?_
            rw [List.dropLast_cons₂]
            exact List.mem_cons_of_mem _ he)
        simpa [splitPortDeclarationsImproved] using this
      rw [hrec]


/-! ## Claims -/

/-- **C1 (counterexample)**  A port clause whose trailing parenthesized
range contains nested parentheses does not round-trip: the captured range
is `"(f(2)"`, not the full `"(f(2) downto 0)"` that appears in the source. -/
theorem c1_range_counterexample :
    extractPorts "port ( d : in std_logic_vector(f(2) downto 0) )".data =
      [⟨"d".data, "in".data, "std_logic_vector".data, some "(f(2)".data⟩] ∧
    (some "(f(2)".data : Option (List Char)) ≠ some "(f(2) downto 0)".data := by
  decide

/-- **C1 (amended)**  A port clause whose trailing parenthesized range
contains no nested parentheses has its range captured verbatim by the
per-clause parser (ranges with nested parentheses are truncated at the
first closing parenthesis, as the counterexample shows). -/
theorem c1_range_roundtrip_amended (nm ty body : List Char)
    (hnm : nm ≠ []) (hnmw : ∀ c ∈ nm, isWordChar c = true)
    (hty : ty ≠ []) (htyw : ∀ c ∈ ty, isWordChar c = true)
    (hbody : ∀ c ∈ body, (c != ')') = true)
    (hclean : normalizeDecl (nm ++ " : in ".data ++ ty ++ " (".data ++ body ++ [')']) =
      nm ++ " : in ".data ++ ty ++ " (".data ++ body ++ [')']) :
    parsePortDeclarationImproved
        (nm ++ " : in ".data ++ ty ++ " (".data ++ body ++ [')']) =
      some ⟨lowerStr nm, "in".data, lowerStr ty, some ("(".data ++ body ++ ")".data)⟩ := by
  have hre : nm ++ " : in ".data ++ ty ++ " (".data ++ body ++ [')'] =
      nm ++ ' ' :: ':' :: ' ' :: 'i' :: 'n' :: ' ' ::
        (ty ++ ' ' :: '(' :: (body ++ [')'])) := by
    rw [show " : in ".data = [' ', ':', ' ', 'i', 'n', ' '] from rfl,
      show " (".data = [' ', '('] from rfl]
    simp [List.append_assoc]
  unfold parsePortDeclarationImproved
  rw [hclean, hre]
  cases nm with
  | nil => exact absurd rfl hnm
  | cons n0 nr =>
    have hm := matchPortAt_clause (n0 :: nr) ty body hnm hnmw hty htyw hbody
    rw [List.cons_append, findPortMatch]
    rw [← List.cons_append n0 nr, hm]
    simp [List.cons_append, List.append_assoc]

/-- **C1 (witness)**  The amended claim at a concrete vector port clause. -/
theorem c1_range_roundtrip_witness :
    parsePortDeclarationImproved
        ("d".data ++ " : in ".data ++ "std_logic_vector".data ++ " (".data ++
          "width-1 downto 0".data ++ [')']) =
      some ⟨lowerStr "d".data, "in".data, lowerStr "std_logic_vector".data,
        some ("(".data ++ "width-1 downto 0".data ++ ")".data)⟩ :=
  c1_range_roundtrip_amended "d".data "std_logic_vector".data
    "width-1 downto 0".data (by decide) (by decide) (by decide) (by decide)
    (by decide) (by decide)

/-- **C2 (counterexample)**  An input whose ports section opens a delimiter
that is never balanced does not abort the parse: the balanced scan fails,
yet `parse_content` succeeds and returns a model with an empty port list. -/
theorem c2_unbalanced_counterexample :
    findPortTail (cleanContent "entity e is port ( a : in std_logic".data) =
      some " a : in std_logic".data ∧
    scanInterior 1 " a : in std_logic".data = none ∧
    parseContent "entity e is port ( a : in std_logic".data ≠ none ∧
    parseContent "entity e is port ( a : in std_logic".data =
      some ⟨"e".data, [], []⟩ := by
  decide

/-- **C2 (amended)**  When the ports section's opening delimiter is found
but the depth never returns to zero, extraction yields an empty port list
and the parse still succeeds (with the generics extracted as usual), rather
than failing with an unbalanced-delimiters error. -/
theorem c2_unbalanced_amended (content t nm : List Char)
    (hpt : findPortTail (cleanContent content) = some t)
    (hscan : scanInterior 1 t = none)
    (hnm : findEntityName (cleanContent content) = some nm) :
    parseContent content =
      some ⟨nm, extractGenerics (cleanContent content), []⟩ := by
  unfold parseContent extractPorts
  simp only [hnm, hpt, hscan]

/-- **C2 (witness)**  The amended claim at a concrete unbalanced input. -/
theorem c2_unbalanced_witness :
    parseContent "entity e is port ( a : in std_logic".data =
      some ⟨"e".data,
        extractGenerics (cleanContent "entity e is port ( a : in std_logic".data),
        []⟩ :=
  c2_unbalanced_amended _ " a : in std_logic".data "e".data
    (by decide) (by decide) (by decide)

/-- **C3 (counterexample)**  The generic-list interior is not located by
balanced-delimiter scanning: with a nested `)` followed by `;` inside the
list, the non-greedy regex truncates the interior before the outermost
closing parenthesis, and the second generic is lost. -/
theorem c3_interior_counterexample :
    genericInterior "generic ( a : integer := f(2) ; b : integer ) ;".data =
      some " a : integer := f(2".data ∧
    " a : integer := f(2".data ≠ " a : integer := f(2) ; b : integer ".data ∧
    extractGenerics "generic ( a : integer := f(2) ; b : integer ) ;".data =
      [⟨"a".data, "integer".data, some "f(2".data⟩] := by
  decide

/-- **C3 (amended)**  The generic-list interior is the text of a shortest
decomposition `interior ++ ')' ++ whitespace ++ ';'` of the input after
`generic` and its opening parenthesis (non-greedy semantics): nested
parentheses are preserved exactly when no nested `)` is followed, after
optional whitespace, by `;` — as in the concrete example with a nested
default expression. -/
theorem c3_interior_amended :
    (∀ (s i : List Char), lazyScanGen [] s = some i →
        (∃ w rest, s = i ++ ')' :: (w ++ ';' :: rest) ∧
          (∀ c ∈ w, isWsChar c = true)) ∧
        (∀ i' w' rest', s = i' ++ ')' :: (w' ++ ';' :: rest') →
          (∀ c ∈ w', isWsChar c = true) → i.length ≤ i'.length)) ∧
    (∀ (s i : List Char), genericInteriorAt s = some i →
        "generic".data.isPrefixOf s = true ∧
        ∃ t, (s.drop 7).dropWhile isWsChar = '(' :: t ∧
          lazyScanGen [] t = some i) ∧
    genericInterior "generic ( n : integer := (3+4) ) ;".data =
      some " n : integer := (3+4) ".data := by
  refine ⟨?_, ?_, by decide⟩
  · intro s i h
    obtain ⟨j, w, rest, hi, hs, hw, hmin⟩ := lazyScanGen_spec s [] i h
    simp only [List.reverse_nil, List.nil_append] at hi
    subst hi
    exact ⟨⟨w, rest, hs, hw⟩, hmin⟩
  · intro s i h
    unfold genericInteriorAt at h
    split at h
    · rename_i hpre
      cases hm : (s.drop 7).dropWhile isWsChar with
      | nil => rw [hm] at h; exact absurd h (by simp)
      | cons c t =>
        rw [hm] at h
        dsimp only at h
        by_cases hc : c = '('
        · rw [if_pos hc] at h
          subst hc
          exact ⟨hpre, t, rfl, h⟩
        · rw [if_neg hc] at h
          exact absurd h (by simp)
    · exact absurd h (by simp)

/-- **C3 (witness)**  Minimality at a concrete input with two candidate
stops: the scan stops at the first. -/
theorem c3_interior_amended_witness :
    ([] : List Char).length ≤ ") ; ".data.length :=
  (c3_interior_amended.1 ") ; ) ; ".data [] (by decide)).2
    ") ; ".data [' '] [' '] (by decide) (by decide)

/-- **C4**  The value resolver substitutes each generic's upper-cased and
original-case name, once per generic in declaration order, with the first
available of override-by-original-name, override-by-upper-cased-name,
declared default, and the fixed fallback `32`; the substitution is textual
(no arithmetic): `(WIDTH-1 downto 0)` with override `16` becomes
`(16-1 downto 0)`, with only default `8` becomes `(8-1 downto 0)`, with
neither becomes `(32-1 downto 0)`, and with value `4` the result is
`(4-1 downto 0)`, not `(3 downto 0)`. -/
theorem c4_value_resolver_precedence :
    (∀ (range : List Char) (generics : List VhdlGeneric)
        (config : Option TestbenchConfig),
        resolveGenericRange range generics config =
          generics.foldl (fun r g =>
            replaceAll (replaceAll r (upperStr g.name) (specValue g config))
              g.name (specValue g config)) range) ∧
    resolveGenericRange "(WIDTH-1 downto 0)".data
        [⟨"WIDTH".data, "integer".data, some "8".data⟩]
        (some ⟨none, none, none, some [("WIDTH".data, "16".data)]⟩) =
      "(16-1 downto 0)".data ∧
    resolveGenericRange "(WIDTH-1 downto 0)".data
        [⟨"WIDTH".data, "integer".data, some "8".data⟩] none =
      "(8-1 downto 0)".data ∧
    resolveGenericRange "(WIDTH-1 downto 0)".data
        [⟨"WIDTH".data, "integer".data, none⟩] none =
      "(32-1 downto 0)".data ∧
    resolveGenericRange "(WIDTH-1 downto 0)".data
        [⟨"WIDTH".data, "integer".data, some "4".data⟩] none =
      "(4-1 downto 0)".data ∧
    resolveGenericRange "(WIDTH-1 downto 0)".data
        [⟨"WIDTH".data, "integer".data, some "4".data⟩] none ≠
      "(3 downto 0)".data := by
  refine ⟨?_, by decide, by decide, by decide, by decide, by decide⟩
  intro range generics config
  unfold resolveGenericRange
  have h : (fun (resolved : List Char) (g : VhdlGeneric) =>
      let value := codeValue g config
      replaceAll (replaceAll resolved (upperStr g.name) value) g.name value) =
      (fun (resolved : List Char) (g : VhdlGeneric) =>
        replaceAll (replaceAll resolved (upperStr g.name) (specValue g config))
          g.name (specValue g config)) := by
    funext r g
    rw [codeValue_eq_specValue]
  rw [h]

/-- **C10**  The generated clock block consists of exactly two waits of
`p / 2` nanoseconds each (integer floor division), with `p` defaulting to
10 when unset or when no config is given; for odd `p` the resulting clock
period is `p - 1` nanoseconds. -/
theorem c10_clock_half_period :
    (∀ cfg : TestbenchConfig,
        generateClockGeneration (some cfg) =
          specClockBlock ((cfg.clock_period_ns.getD 10) / 2)) ∧
    generateClockGeneration none = specClockBlock 5 ∧
    (∀ p : Nat, p % 2 = 1 →
        p / 2 + p / 2 = p - 1 ∧
        generateClockGeneration (some ⟨some p, none, none, none⟩) =
          specClockBlock (p / 2)) ∧
    countOccur "wait for".data
      (generateClockGeneration (some ⟨some 7, none, none, none⟩)) = 2 := by
  refine ⟨fun cfg => rfl, rfl, fun p hp => ⟨by omega, rfl⟩, by decide⟩

/-- **C5**  Parsing fails exactly when no `entity <id> is` pattern exists in
the normalized input; when one exists, the entity name is the first matched
identifier, which is lowercase; absence of the generic section yields zero
generics and absence of the port section yields an empty port list, both
without failing.  A concrete noisy input (mixed case, comment, irregular
whitespace, no generics, no ports) parses to `foobar` with empty lists. -/
theorem c5_entity_name_and_optional_sections :
    (∀ content : List Char,
        parseContent content = none ↔
          findEntityName (cleanContent content) = none) ∧
    (∀ (content : List Char) (e : VhdlEntity),
        parseContent content = some e →
        findEntityName (cleanContent content) = some e.name ∧
        lowerStr e.name = e.name ∧
        e.generics = extractGenerics (cleanContent content) ∧
        e.ports = extractPorts (cleanContent content)) ∧
    (∀ (content : List Char) (e : VhdlEntity),
        parseContent content = some e →
        genericInterior (cleanContent content) = none → e.generics = []) ∧
    (∀ (content : List Char) (e : VhdlEntity),
        parseContent content = some e →
        findPortTail (cleanContent content) = none → e.ports = []) ∧
    parseContent "EnTiTy   FooBar  is -- a comment\n end".data =
      some ⟨"foobar".data, [], []⟩ := by
  have hsome : ∀ (content : List Char) (e : VhdlEntity),
      parseContent content = some e →
      findEntityName (cleanContent content) = some e.name ∧
      e.generics = extractGenerics (cleanContent content) ∧
      e.ports = extractPorts (cleanContent content) := by
    intro content e h
    simp only [parseContent] at h
    cases hfe : findEntityName (cleanContent content) with
    | none => rw [hfe] at h; exact absurd h (by simp)
    | some nm =>
      rw [hfe] at h
      injection h with h
      subst h
      exact ⟨rfl, rfl, rfl⟩
  refine ⟨?_, ?_, ?_, ?_, by decide⟩
  · intro content
    simp only [parseContent]
    cases hfe : findEntityName (cleanContent content) with
    | none => simp [hfe]
    | some nm => simp [hfe]
  · intro content e h
    obtain ⟨h1, h2, h3⟩ := hsome content e h
    refine ⟨h1, ?_, h2, h3⟩
    apply lowerStr_fixed
    intro c hc
    have hcs : c ∈ cleanContent content := findEntityName_mem h1 c hc
    unfold cleanContent at hcs
    exact lowerChar_of_mem_lowerStr hcs
  · intro content e h hgi
    rw [(hsome content e h).2.1]
    unfold extractGenerics
    rw [hgi]
  · intro content e h hpt
    rw [(hsome content e h).2.2]
    unfold extractPorts
    rw [hpt]

/-- **C5 (witness)**  The section-absence conjuncts at the concrete noisy
input. -/
theorem c5_entity_name_and_optional_sections_witness :
    findEntityName
        (cleanContent "EnTiTy   FooBar  is -- a comment\n end".data) =
      some "foobar".data ∧
    lowerStr "foobar".data = "foobar".data :=
  have h := (c5_entity_name_and_optional_sections.2.1
    "EnTiTy   FooBar  is -- a comment\n end".data
    ⟨"foobar".data, [], []⟩ (by decide))
  ⟨h.1, h.2.1⟩

/-- **C6**  When the split clauses of the located ports interior contain
exactly one clause that the per-clause parser rejects, extraction yields
exactly one port fewer than the number of clauses — the other clauses'
ports, in declaration order — and every produced port has a name and one of
the three directions (no partially populated record). -/
theorem c6_malformed_clause_dropped (content t interior : List Char)
    (hpt : findPortTail content = some t)
    (hscan : scanInterior 1 t = some interior)
    (hcount : (splitPortDeclarationsImproved interior).countP
        (fun d => (parsePortDeclarationImproved d).isNone) = 1) :
    (extractPorts content).length + 1 =
      (splitPortDeclarationsImproved interior).length ∧
    extractPorts content =
      (splitPortDeclarationsImproved interior).filterMap
        parsePortDeclarationImproved ∧
    ∀ p ∈ extractPorts content,
      p.name ≠ [] ∧ (p.direction = "in".data ∨ p.direction = "out".data ∨
        p.direction = "inout".data) := by
  have he : extractPorts content =
      (splitPortDeclarationsImproved interior).filterMap
        parsePortDeclarationImproved := by
    unfold extractPorts
    rw [hpt]
    dsimp only
    rw [hscan]
  refine ⟨?_, he, ?_⟩
  · rw [he]
    have hlen := filterMap_length_add_countP
      (splitPortDeclarationsImproved interior) parsePortDeclarationImproved
    omega
  · intro p hp
    rw [he] at hp
    obtain ⟨d, _, hd⟩ := List.mem_filterMap.mp hp
    exact findPortMatch_shape hd

/-- **C6 (witness)**  Three clauses, one malformed (`b`), two ports kept. -/
theorem c6_malformed_clause_dropped_witness :
    (extractPorts "port ( a : in std_logic ; b ; c : out integer )".data).length
        + 1 =
      (splitPortDeclarationsImproved
        " a : in std_logic ; b ; c : out integer ".data).length ∧
    extractPorts "port ( a : in std_logic ; b ; c : out integer )".data =
      (splitPortDeclarationsImproved
        " a : in std_logic ; b ; c : out integer ".data).filterMap
        parsePortDeclarationImproved :=
  have h := c6_malformed_clause_dropped
    "port ( a : in std_logic ; b ; c : out integer )".data
    " a : in std_logic ; b ; c : out integer )".data
    " a : in std_logic ; b ; c : out integer ".data
    (by decide) (by decide) (by decide)
  ⟨h.1, h.2.1⟩

/-- **C7**  A generics block of the shape `generic ( a : t1 := d1 ; b : t2 ) ;`
(identifiers made of word characters, the default a whitespace-free text
without separator characters) yields exactly two generics in declaration
order: `a` of type `t1` with default `d1`, and `b` of type `t2` with no
default. -/
theorem c7_generic_block_two_entries (a t1 d1 b t2 : List Char)
    (ha : a ≠ []) (haw : ∀ c ∈ a, isWordChar c = true)
    (ht1 : t1 ≠ []) (ht1w : ∀ c ∈ t1, isWordChar c = true)
    (hd1 : d1 ≠ []) (hd1w : ∀ c ∈ d1, isDefChar c = true ∧ isWsChar c = false)
    (hb : b ≠ []) (hbw : ∀ c ∈ b, isWordChar c = true)
    (ht2 : t2 ≠ []) (ht2w : ∀ c ∈ t2, isWordChar c = true) :
    extractGenerics ("generic ( ".data ++ a ++ " : ".data ++ t1 ++ " := ".data ++
        d1 ++ " ; ".data ++ b ++ " : ".data ++ t2 ++ " ) ;".data) =
      [⟨a, t1, some d1⟩, ⟨b, t2, none⟩] := by
  -- canonical right-associated form of the input and of the section interior
  have hC : "generic ( ".data ++ a ++ " : ".data ++ t1 ++ " := ".data ++
      d1 ++ " ; ".data ++ b ++ " : ".data ++ t2 ++ " ) ;".data =
      "generic".data ++ (' ' :: '(' ::
        ((' ' :: (a ++ ' ' :: ':' :: ' ' :: (t1 ++ ' ' :: ':' :: '=' :: ' ' ::
          (d1 ++ ' ' :: ';' :: ' ' :: (b ++ ' ' :: ':' :: ' ' :: (t2 ++ [' '])))))) ++
          (')' :: ' ' :: ';' :: []))) := by
    rw [show ("generic ( ".data : List Char) =
      "generic".data ++ [' ', '(', ' '] from rfl]
    rw [show (" ) ;".data : List Char) = [' ', ')', ' ', ';'] from rfl]
    simp [List.append_assoc]
  rw [hC]
  -- the interior scan walks over the whole clause list
  have hnostop : ∀ c ∈ ' ' :: (a ++ ' ' :: ':' :: ' ' :: (t1 ++ ' ' :: ':' :: '=' :: ' ' ::
      (d1 ++ ' ' :: ';' :: ' ' :: (b ++ ' ' :: ':' :: ' ' :: (t2 ++ [' ']))))),
      c ≠ ')' ∧ c ≠ '\n' := by
    refine forall_mem_cons_intro (by decide) ?_
    refine forall_mem_append (fun c hc => word_ne_special (haw c hc)) ?_
    refine forall_mem_cons_intro (by decide) ?_
    refine forall_mem_cons_intro (by decide) ?_
    refine forall_mem_cons_intro (by decide) ?_
    refine forall_mem_append (fun c hc => word_ne_special (ht1w c hc)) ?_
    refine forall_mem_cons_intro (by decide) ?_
    refine forall_mem_cons_intro (by decide) ?_
    refine forall_mem_cons_intro (by decide) ?_
    refine forall_mem_cons_intro (by decide) ?_
    refine forall_mem_append (fun c hc => defChar_ne (hd1w c hc).1 (hd1w c hc).2) ?_
    refine forall_mem_cons_intro (by decide) ?_
    refine forall_mem_cons_intro (by decide) ?_
    refine forall_mem_cons_intro (by decide) ?_
    refine forall_mem_append (fun c hc => word_ne_special (hbw c hc)) ?_
    refine forall_mem_cons_intro (by decide) ?_
    refine forall_mem_cons_intro (by decide) ?_
    refine forall_mem_cons_intro (by decide) ?_
    refine forall_mem_append (fun c hc => word_ne_special (ht2w c hc)) ?_
    exact fun c hc => by
      simp at hc
      subst hc
      decide
  have hat : genericInteriorAt ("generic".data ++ (' ' :: '(' ::
      ((' ' :: (a ++ ' ' :: ':' :: ' ' :: (t1 ++ ' ' :: ':' :: '=' :: ' ' ::
        (d1 ++ ' ' :: ';' :: ' ' :: (b ++ ' ' :: ':' :: ' ' :: (t2 ++ [' '])))))) ++
        (')' :: ' ' :: ';' :: [])))) =
      some (' ' :: (a ++ ' ' :: ':' :: ' ' :: (t1 ++ ' ' :: ':' :: '=' :: ' ' ::
        (d1 ++ ' ' :: ';' :: ' ' :: (b ++ ' ' :: ':' :: ' ' :: (t2 ++ [' '])))))) := by
    unfold genericInteriorAt
    rw [if_pos (isPrefixOf_append_self "generic".data _)]
    rw [List.drop_left' (show ("generic".data : List Char).length = 7 from rfl)]
    rw [List.dropWhile_cons_of_pos (show isWsChar ' ' = true by decide)]
    rw [List.dropWhile_cons_of_neg (show ¬ isWsChar '(' = true by decide)]
    dsimp only
    rw [if_pos rfl]
    rw [show (')' :: ' ' :: ';' :: [] : List Char) = ')' :: ([' '] ++ ';' :: []) from rfl]
    rw [lazyScanGen_append _ [] _ hnostop]
    rw [lazyScanGen_stop _ [' '] [] (by decide)]
    simp
  unfold extractGenerics
  rw [genericInterior_concrete_head _ _ hat]
  dsimp only
  -- now run the per-generic iteration over the interior
  obtain ⟨k1, hm1, hk1⟩ := matchGenericAt_defclause a t1 d1
    (b ++ ' ' :: ':' :: ' ' :: (t2 ++ [' '])) ha haw ht1 ht1w hd1 hd1w
  obtain ⟨k2, hm2, hk2⟩ := matchGenericAt_nodefclause b t2 hb hbw ht2 ht2w
  have hlen1 : (';' :: ' ' :: (b ++ ' ' :: ':' :: ' ' :: (t2 ++ [' ']))).length <
      (a ++ ' ' :: ':' :: ' ' :: (t1 ++ ' ' :: ':' :: '=' :: ' ' ::
        (d1 ++ ' ' :: ';' :: ' ' :: (b ++ ' ' :: ':' :: ' ' :: (t2 ++ [' ']))))).length := by
    have := List.length_pos_of_ne_nil ha
    have := List.length_pos_of_ne_nil ht1
    have := List.length_pos_of_ne_nil hd1
    simp [List.length_append]
    omega
  have hlen2 : ([' '] : List Char).length <
      (b ++ ' ' :: ':' :: ' ' :: (t2 ++ [' '])).length := by
    have := List.length_pos_of_ne_nil hb
    simp [List.length_append]
    omega
  rw [genericsRun_nomatch (matchGenericAt_nonword
    (show isWordChar ' ' = false by decide))]
  rw [genericsRun_match hm1 hk1 hlen1]
  rw [genericsRun_nomatch (matchGenericAt_nonword
    (show isWordChar ';' = false by decide))]
  rw [genericsRun_nomatch (matchGenericAt_nonword
    (show isWordChar ' ' = false by decide))]
  rw [genericsRun_match hm2 hk2 hlen2]
  rw [genericsRun_nomatch (matchGenericAt_nonword
    (show isWordChar ' ' = false by decide))]
  rfl

/-- **C7 (witness)**  The block `generic ( n : integer := 8 ; m : natural ) ;`. -/
theorem c7_generic_block_two_entries_witness :
    extractGenerics ("generic ( ".data ++ "n".data ++ " : ".data ++
        "integer".data ++ " := ".data ++ "8".data ++ " ; ".data ++ "m".data ++
        " : ".data ++ "natural".data ++ " ) ;".data) =
      [⟨"n".data, "integer".data, some "8".data⟩,
        ⟨"m".data, "natural".data, none⟩] :=
  c7_generic_block_two_entries "n".data "integer".data "8".data "m".data
    "natural".data (by decide) (by decide) (by decide) (by decide) (by decide)
    (by decide) (by decide) (by decide) (by decide) (by decide)

/-- **C9**  The stimulus block always begins with the reset sequence that
drives `tb_rst`, for every port list (in particular when no reset port
exists) and every optional config; the internal-signal block never adds a
`tb_rst` declaration on its own: it maps each port to its declaration and
auto-adds only `tb_clk`, and only when no port name contains `clk`. -/
theorem c9_reset_and_internal_signals :
    (∀ (ports : List VhdlPort) (config : Option TestbenchConfig),
        ∃ rest, generateStimulusProcess ports config = resetPrefix ++ rest) ∧
    (∀ (generics : List VhdlGeneric) (config : Option TestbenchConfig),
        generateInternalSignals [] generics config = tbClkDecl) ∧
    (∀ (ports : List VhdlPort) (generics : List VhdlGeneric)
        (config : Option TestbenchConfig),
        ports.any (fun p => containsSub "clk".data (lowerStr p.name)) = true →
        generateInternalSignals ports generics config =
          List.intercalate ['\n'] (ports.map (portSignalDecl generics config))) ∧
    (∀ (ports : List VhdlPort) (generics : List VhdlGeneric)
        (config : Option TestbenchConfig),
        ports.any (fun p => containsSub "clk".data (lowerStr p.name)) = false →
        generateInternalSignals ports generics config =
          List.intercalate ['\n']
            (ports.map (portSignalDecl generics config) ++ [tbClkDecl])) ∧
    containsSub "tb_rst".data
        (generateInternalSignals [⟨"a".data, "in".data, "std_logic".data, none⟩]
          [] none) = false ∧
    containsSub "tb_rst".data
        (generateStimulusProcess [⟨"a".data, "in".data, "std_logic".data, none⟩]
          none) = true := by
  refine ⟨?_, ?_, ?_, ?_, by decide, by decide⟩
  · intro ports config
    refine ⟨natStr ((config.bind (fun c => c.reset_duration_ns)).getD 100) ++
      " ns;\n    tb_rst <= ".data ++ lit0 ++ ";\n    wait for 20 ns;\n\n".data ++
      (stimulusMiddle ports config ++ stimulusTail), ?_⟩
    simp [generateStimulusProcess, resetBlock, resetPrefix, List.append_assoc]
  · intro generics config
    rfl
  · intro ports generics config h
    simp only [generateInternalSignals, h, if_true]
  · intro ports generics config h
    simp only [generateInternalSignals, h, Bool.false_eq_true, if_false]

/-- **C9 (witness)**  The clk-containing conjunct at a concrete port list. -/
theorem c9_reset_and_internal_signals_witness :
    generateInternalSignals [⟨"clk".data, "in".data, "std_logic".data, none⟩]
        [] none =
      List.intercalate ['\n']
        ([⟨"clk".data, "in".data, "std_logic".data, none⟩].map
          (portSignalDecl [] none)) :=
  c9_reset_and_internal_signals.2.2.1 _ [] none (by decide)

/-- **C10 (witness)**  The odd-period conjunct at `p = 7`. -/
theorem c10_clock_half_period_witness :
    7 / 2 + 7 / 2 = 7 - 1 ∧
    generateClockGeneration (some ⟨some 7, none, none, none⟩) =
      specClockBlock (7 / 2) :=
  c10_clock_half_period.2.2.1 7 (by decide)


/-- **C8.** The clause splitter never splits at a separator nested inside
parentheses (concretely, a(b;c);d yields the two clauses a(b;c) and d),
preserves input order while dropping empty and whitespace-only clauses (every
emitted clause is trimmed and non-empty), emits a trailing clause at end of
input even without a terminating separator, and is idempotent: splitting,
rejoining with the separator, and re-splitting yields the identical sequence. -/
theorem c8_splitter_properties :
    (∀ content, splitPortDeclarationsImproved
        (List.intercalate [';'] (splitPortDeclarationsImproved content)) =
      splitPortDeclarationsImproved content) ∧
    (∀ content d, d ∈ splitPortDeclarationsImproved content →
      trimWs d = d ∧ d ≠ []) ∧
    (∀ s, noSplitSemisB 0 s = true → trimWs s ≠ [] →
      splitPortDeclarationsImproved s = [trimWs s]) ∧
    splitPortDeclarationsImproved "a(b;c);d".data = ["a(b;c)".data, "d".data] := by
  refine ⟨?_, ?_, ?_, by decide⟩
  · intro content
    exact splitPDI_intercalate _
      (fun d hd => splitGo_good content [] 0 rfl rfl d hd)
      (fun d hd => splitGo_dropLast_net content [] 0 rfl d hd)
  · intro content d hd
    obtain ⟨h1, h2, _⟩ := splitGo_good content [] 0 rfl rfl d hd
    exact ⟨h1, h2⟩
  · intro s hns hne
    unfold splitPortDeclarationsImproved
    have h2 := splitGo_through s 0 [] [] hns
    rw [List.append_nil, List.nil_append] at h2
    rw [h2, splitGo_nil, if_neg (by simpa [List.isEmpty_iff] using hne)]

/-- Witness for C8: the trailing-clause conjunct at a concrete input. -/
theorem c8_splitter_properties_witness :
    splitPortDeclarationsImproved " a b ".data = [trimWs " a b ".data] :=
  c8_splitter_properties.2.2.1 " a b ".data (by decide) (by decide)

end Autobench
